import Mathlib

/-!
Verification development for the byte-oriented Huffman compressor in
`Huffman.py` (class `HuffmanCode`).

Python strings are modelled as `List Char`.  The program represents every
byte of the input file as its 8-character binary string (`read_bytes`), so a
"symbol" here is a list of eight `'0'`/`'1'` characters.  Python dictionaries
are modelled as insertion-ordered association lists with in-place update,
matching CPython semantics.  The float frequencies produced by
`make_frequency_tuples` (`count / total`) are modelled as exact non-negative
rationals given by numerator/denominator pairs of naturals; the algorithm
only ever adds them and compares them, and both operations are modelled by
the exact real-number operations.  Fallible Python operations (list
indexing, dict lookup, `BitArray` construction and interpretation) are
modelled in the `Except PyErr` monad.
-/

namespace Huffman

/-- A Python string: a list of characters. -/
abbrev Str := List Char

/-- The character is `'0'` or `'1'`. -/
def isBit (c : Char) : Bool := c == '0' || c == '1'

/-- Every character of the string is a bit character. -/
def isBits (s : Str) : Bool := s.all isBit

/-- The string is the binary form of one byte: eight bit characters. -/
def isByte (s : Str) : Bool := s.length == 8 && isBits s

/-- The Python exceptions that the modelled code can raise. -/
inductive PyErr where
  /-- `IndexError`: list index out of range. -/
  | indexError
  /-- `KeyError`: dict lookup of a missing key. -/
  | keyError
  /-- `bitstring.CreationError`: `BitArray(uint=n, length=8)` with `n`
  outside `[0, 255]`, or `BitArray(bin=s)` with a non-binary character. -/
  | creationError
  /-- `bitstring.InterpretError`: `.uint` of an empty bit string. -/
  | interpretError
deriving DecidableEq, Repr

instance {ε α : Type} [DecidableEq ε] [DecidableEq α] : DecidableEq (Except ε α) :=
  fun a b =>
    match a, b with
    | .ok x, .ok y => if h : x = y then .isTrue (by rw [h]) else .isFalse (by simp [h])
    | .error x, .error y => if h : x = y then .isTrue (by rw [h]) else .isFalse (by simp [h])
    | .ok _, .error _ => .isFalse (by simp)
    | .error _, .ok _ => .isFalse (by simp)

/-- Exact model of the Python float values flowing through the frequency
lists: a non-negative rational `num / den`.  The program only divides a
count by the positive total, adds two frequencies, and compares two
frequencies, so only those operations are provided; they are the exact
rational (hence real-number) operations. -/
structure Frac where
  num : Nat
  den : Nat
deriving DecidableEq, Repr

/-- Exact `≤` on frequencies (denominators are always positive here). -/
def Frac.le (x y : Frac) : Bool := x.num * y.den ≤ y.num * x.den

/-- Exact addition of two frequencies. -/
def Frac.add (x y : Frac) : Frac := ⟨x.num * y.den + y.num * x.den, x.den * y.den⟩

/-- Exact division `a / b` of two counts. -/
def fracDiv (a b : Nat) : Frac := ⟨a, b⟩

/-- The decimal digit character of `d < 10`. -/
def digitChar (d : Nat) : Char := Char.ofNat (48 + d)

/-- Fuel-driven decimal representation: `fuel ≥ n` always suffices, so the
zero-fuel branch is unreachable in `natDec`.  (Structural recursion on the
fuel keeps the definition evaluable by the kernel.) -/
def natDecGo : Nat → Nat → List Char
  | 0, n => [digitChar n]
  | fuel + 1, n =>
    if n < 10 then [digitChar n]
    else natDecGo fuel (n / 10) ++ [digitChar (n % 10)]

/-- Decimal representation of a natural number, as Python's `str(i)`. -/
def natDec (n : Nat) : List Char := natDecGo n n

/-- `self.codesnames[i]`, i.e. the Python f-string `f'alpha{i}__'`: the
special placeholder token used for the `i`-th merge during table
construction.  (In the source this is a precomputed list for
`i in range(256)`; every index the program uses stays below 256.) -/
def codesnames (i : Nat) : Str :=
  ('a' :: 'l' :: 'p' :: 'h' :: 'a' :: natDec i) ++ ['_', '_']

/-- Split a string into its maximal leading run of decimal digits and the
rest (the greedy `\d+` of the regex). -/
def takeDigits : Str → Str × Str
  | [] => ([], [])
  | c :: rest =>
    if c.isDigit then
      let p := takeDigits rest
      (c :: p.1, p.2)
    else ([], c :: rest)

/-- The regex test of `update_dictionary`: if the pattern `alpha\d+__` of the regex `alpha\d+__` matches at the
start of `s`, return the matched token together with the remainder of `s`. -/
def patMatchSplit (s : Str) : Option (Str × Str) :=
  if s.take 5 = ['a', 'l', 'p', 'h', 'a'] then
    if (takeDigits (s.drop 5)).1 ≠ [] ∧ (takeDigits (s.drop 5)).2.take 2 = ['_', '_'] then
      some (s.take 5 ++ (takeDigits (s.drop 5)).1 ++ ['_', '_'],
        (takeDigits (s.drop 5)).2.drop 2)
    else none
  else none

/-- `re.match(self.pat, s)`: the matched group `alpha\d+__`, if any. -/
def patMatch (s : Str) : Option Str := (patMatchSplit s).map Prod.fst

theorem takeDigits_append (s : Str) : (takeDigits s).1 ++ (takeDigits s).2 = s := by
  induction s with
  | nil => rfl
  | cons c rest ih =>
    simp only [takeDigits]
    split
    · simpa using ih
    · simp

theorem patMatchSplit_len {s : Str} {p : Str × Str}
    (h : patMatchSplit s = some p) : p.2.length < s.length := by
  unfold patMatchSplit at h
  split at h
  · next hpre =>
    split at h
    · next hds =>
      have hlen5 : 5 ≤ s.length := by
        have := congrArg List.length hpre
        simp at this
        omega
      have hsplit := takeDigits_append (s.drop 5)
      have hdl : (takeDigits (s.drop 5)).1.length + (takeDigits (s.drop 5)).2.length
          = s.length - 5 := by
        have := congrArg List.length hsplit
        simpa using this
      have hds1 : 1 ≤ (takeDigits (s.drop 5)).1.length := by
        cases hne : (takeDigits (s.drop 5)).1 with
        | nil => exact absurd hne hds.1
        | cons a t => simp [hne]
      have hp2 : p.2 = (takeDigits (s.drop 5)).2.drop 2 := by
        cases h; rfl
      have : p.2.length ≤ (takeDigits (s.drop 5)).2.length := by
        rw [hp2]; simp
      omega
    · exact absurd h (by simp)
  · exact absurd h (by simp)

/-- Fuel-driven scan for `re.sub`: each step consumes at least one
character, so `fuel ≥ s.length` always suffices and the zero-fuel branch is
unreachable in `reSub`. -/
def reSubGo (repl : Str) : Nat → Str → Str
  | 0, s => s
  | fuel + 1, s =>
    match patMatchSplit s with
    | some p => repl ++ reSubGo repl fuel p.2
    | none =>
      match s with
      | [] => []
      | c :: rest => c :: reSubGo repl fuel rest

/-- `re.sub(self.pat, repl, s)`: replace every non-overlapping occurrence of
`alpha\d+__` in `s` by `repl`, scanning left to right. -/
def reSub (repl : Str) (s : Str) : Str := reSubGo repl s.length s

/-- A Python `dict` with `Str` keys and values: an insertion-ordered
association list without duplicate keys. -/
abbrev Dict := List (Str × Str)

/-- The keys of a dict, in insertion order. -/
def keys (d : Dict) : List Str := d.map Prod.fst

/-- `k in d.keys()`. -/
def dmem (d : Dict) (k : Str) : Bool := d.any (fun p => p.1 == k)

/-- `d[k]` as an optional lookup (first entry with the given key). -/
def dfind (d : Dict) (k : Str) : Option Str :=
  (d.find? (fun p => p.1 == k)).map Prod.snd

/-- `d[k] = v`: replace the value in place if the key exists, else append. -/
def dset (d : Dict) (k v : Str) : Dict :=
  if dmem d k then d.map (fun p => if p.1 == k then (p.1, v) else p)
  else d ++ [(k, v)]

/-- One iteration of the `for i in cd` loop of `update_dictionary`
(`Huffman.py` lines 58-63) for key `k`, on the current dict `cd`: if the
value of `k` starts with a placeholder token that is itself a key of the
dict, substitute that token's value into the value of `k`. -/
def updateStep (cd : Dict) (k : Str) : Dict :=
  match dfind cd k with
  | none => cd
  | some v =>
    match patMatch v with
    | none => cd
    | some tok =>
      match dfind cd tok with
      | none => cd
      | some w => dset cd k (reSub w v)

/-- `HuffmanCode.update_dictionary` (`Huffman.py` lines 51-64): iterate over
the keys in insertion order, threading the mutated dict. -/
def update_dictionary (cd : Dict) : Dict := (keys cd).foldl updateStep cd

/-- Insert an element into a list already sorted by descending frequency,
placing it after existing entries of equal frequency. -/
def insertDesc (x : Frac × Str) : List (Frac × Str) → List (Frac × Str)
  | [] => [x]
  | y :: ys => if Frac.le x.1 y.1 then y :: insertDesc x ys else x :: y :: ys

/-- `freqs.sort(key = operator.itemgetter(0), reverse = True)`: the stable
descending sort by frequency.  (Any stable sort computes the same list;
this is the stable insertion sort.) -/
def sortDesc (l : List (Frac × Str)) : List (Frac × Str) :=
  l.foldl (fun acc x => insertDesc x acc) []

theorem insertDesc_length (x : Frac × Str) (l : List (Frac × Str)) :
    (insertDesc x l).length = l.length + 1 := by
  induction l with
  | nil => rfl
  | cons y ys ih =>
    simp only [insertDesc]
    split <;> simp [ih]

theorem sortDesc_length (l : List (Frac × Str)) :
    (sortDesc l).length = l.length := by
  suffices h : ∀ acc : List (Frac × Str),
      (l.foldl (fun acc x => insertDesc x acc) acc).length = acc.length + l.length by
    simpa using h []
  induction l with
  | nil => intro acc; simp
  | cons y ys ih =>
    intro acc
    simp only [List.foldl_cons]
    rw [ih]
    rw [insertDesc_length]
    simp only [List.length_cons]
    omega

/-- `counts[x] = counts.get(x, 0) + 1` on the insertion-ordered counts
dict (`Huffman.py` line 44). -/
def bumpCount (counts : List (Str × Nat)) (x : Str) : List (Str × Nat) :=
  if counts.any (fun p => p.1 == x) then
    counts.map (fun p => if p.1 == x then (p.1, p.2 + 1) else p)
  else counts ++ [(x, 1)]

/-- `HuffmanCode.make_frequency_tuples` (`Huffman.py` lines 34-49): count
each symbol, normalize the counts by the total, and stably sort the
`(frequency, symbol)` pairs in descending order of frequency. -/
def make_frequency_tuples (binary_list : List Str) : List (Frac × Str) :=
  let counts := binary_list.foldl bumpCount []
  let freqs : List (Nat × Str) := counts.map (fun p => (p.2, p.1))
  let total : Nat := (freqs.map Prod.fst).sum
  let freqs2 : List (Frac × Str) := freqs.map (fun p => (fracDiv p.1 total, p.2))
  sortDesc freqs2

/-- The `while len(freqs) > 2` merge loop of `create_encoder_dictionary`
(`Huffman.py` lines 76-85), returning the codes dict and the remaining
frequency list.  `freqs[-2:]` are the two least frequent entries; they are
assigned `codesnames[ptr] + '0'` and `codesnames[ptr] + '1'` and replaced by
one synthetic entry carrying the summed frequency. -/
def buildLoopGo : Nat → Dict → List (Frac × Str) → Nat → Dict × List (Frac × Str)
  | 0, codes, freqs, _ => (codes, freqs)
  | fuel + 1, codes, freqs, ptr =>
    if 2 < freqs.length then
      let last := freqs.drop (freqs.length - 2)
      let top := freqs.take (freqs.length - 2)
      let l0 := last.headD (⟨0, 1⟩, [])
      let l1 := (last.drop 1).headD (⟨0, 1⟩, [])
      let new_freq := Frac.add l0.1 l1.1
      let codes1 := dset codes l0.2 (codesnames ptr ++ ['0'])
      let codes2 := dset codes1 l1.2 (codesnames ptr ++ ['1'])
      let freqs2 := sortDesc (top ++ [(new_freq, codesnames ptr)])
      let codes3 := update_dictionary codes2
      buildLoopGo fuel codes3 freqs2 (ptr + 1)
    else (codes, freqs)

/-- The merge loop, with enough fuel for all its iterations (each iteration
shortens the frequency list by one and the loop stops at length 2, so
`freqs.length` iterations always suffice). -/
def buildLoop (codes : Dict) (freqs : List (Frac × Str)) (ptr : Nat) :
    Dict × List (Frac × Str) :=
  buildLoopGo freqs.length codes freqs ptr

/-- `HuffmanCode.create_encoder_dictionary` (`Huffman.py` lines 66-92).
After the merge loop, `codes[freqs[0][1]] = '0'` and
`codes[freqs[1][1]] = '1'`; if fewer than two entries remain these list
indexings raise `IndexError` (for a single entry the first assignment
happens before `freqs[1]` raises, but the dict is discarded).  Finally the
placeholder keys are filtered out. -/
def create_encoder_dictionary (freqs : List (Frac × Str)) : Except PyErr Dict :=
  let r := buildLoop [] freqs 0
  match r.2 with
  | [] => .error .indexError
  | [_] => .error .indexError
  | f0 :: f1 :: _ =>
    let codes1 := dset r.1 f0.2 ['0']
    let codes2 := dset codes1 f1.2 ['1']
    let codes3 := update_dictionary codes2
    .ok (codes3.filter (fun p => (patMatch p.1).isNone))

/-- `BitArray(uint = n, length = len).bin`: the `len`-bit binary string of
`n`, most significant bit first. -/
def natToBin : Nat → Nat → Str
  | 0, _ => []
  | len + 1, n => natToBin len (n / 2) ++ [if n % 2 == 1 then '1' else '0']

/-- `BitArray(bin = s).uint` for a bit string: the value of `s` read as a
big-endian unsigned integer. -/
def binToNat (s : Str) : Nat :=
  s.foldl (fun acc c => acc * 2 + (if c == '1' then 1 else 0)) 0

/-- `BitArray(bin = s).uint` with its failure modes: a non-binary character
raises `CreationError`, an empty string cannot be interpreted. -/
def binUint (s : Str) : Except PyErr Nat :=
  if isBits s then
    if s.isEmpty then .error .interpretError else .ok (binToNat s)
  else .error .creationError

/-- `BitArray(uint = n, length = 8).bin` for a Python int `n`: raises
`CreationError` unless `0 ≤ n < 256`. -/
def toUint8 (n : Int) : Except PyErr Str :=
  if 0 ≤ n ∧ n < 256 then .ok (natToBin 8 n.toNat) else .error .creationError

/-- `HuffmanCode.make_header` (`Huffman.py` lines 95-115): one byte with
`len(encoder_dict) - 1`, then for each entry (in dict order) the 8-bit
symbol, one byte with the codeword bit-length, and the codeword.  (The
`bin_string` parameter is unused, as in the source.) -/
def make_header (_bin_string : Str) (encoder_dict : Dict) : Except PyErr Str := do
  let h0 ← toUint8 ((encoder_dict.length : Int) - 1)
  encoder_dict.foldlM (fun acc p => do
    let nb ← toUint8 (p.2.length : Int)
    pure (acc ++ p.1 ++ nb ++ p.2)) h0

/-- The `for i in bitlist: orig_encoded_string += encoder_dict[i]` loop of
`Encode` (`Huffman.py` lines 128-129); a missing key raises `KeyError`. -/
def encodeSymbols (encoder_dict : Dict) (bitlist : List Str) : Except PyErr Str :=
  bitlist.foldlM (fun acc s =>
    match dfind encoder_dict s with
    | some c => pure (acc ++ c)
    | none => .error .keyError) []

/-- The instance attributes stored by `Encode` (`Huffman.py` lines 135-140).
`__init__` only sets the constant regex pattern and placeholder names, which
are the same for every instance, so the mutable state is exactly these five
attributes (unset before the first `Encode` call). -/
structure HuffmanState where
  orig_encoded_string : Option Str
  freqs : Option (List (Frac × Str))
  encoder_dict : Option Dict
  bitlist : Option (List Str)
  encoded_string : Option Str
deriving DecidableEq, Repr

/-- The state of a freshly constructed `HuffmanCode()` instance. -/
def initState : HuffmanState := ⟨none, none, none, none, none⟩

/-- `HuffmanCode.Encode` (`Huffman.py` lines 117-141) on an instance with
state `_self`, taking the `read_bytes` output (the list of 8-bit symbol
strings) as input: build the frequency table and the encoder dict, encode
every symbol, prepend the header, prepend the pad-count byte and append
`n_pad` zero bits.  Returns the encoded string together with the new
instance state; the incoming state is never read. -/
def EncodeSt (_self : HuffmanState) (bitlist : List Str) :
    Except PyErr (Str × HuffmanState) := do
  let freqs := make_frequency_tuples bitlist
  let encoder_dict ← create_encoder_dictionary freqs
  let orig_encoded_string ← encodeSymbols encoder_dict bitlist
  let header ← make_header orig_encoded_string encoder_dict
  let encoded0 := header ++ orig_encoded_string
  let n_pad := 8 - encoded0.length % 8
  let padByte ← toUint8 (n_pad : Int)
  let encoded_string := padByte ++ encoded0 ++ List.replicate n_pad '0'
  pure (encoded_string,
    ⟨some orig_encoded_string, some freqs, some encoder_dict,
     some bitlist, some encoded_string⟩)

/-- The return value of `Encode` on a fresh instance. -/
def Encode (bitlist : List Str) : Except PyErr Str :=
  (EncodeSt initState bitlist).map Prod.fst

/-- The `for _ in range(n_symb)` header-parsing loop of `Decode`
(`Huffman.py` lines 157-164): read an 8-bit symbol, an 8-bit codeword
length, and that many codeword bits, adding `codeword ↦ symbol` to the
decode map and dropping the consumed bits. -/
def parseHeaderLoop : Nat → Dict → Str → Except PyErr (Dict × Str)
  | 0, code2symb, btd => pure (code2symb, btd)
  | n + 1, code2symb, btd => do
    let symb := btd.take 8
    let n_bits ← binUint ((btd.drop 8).take 8)
    let code := (btd.drop 16).take n_bits
    parseHeaderLoop n (dset code2symb code symb) (btd.drop (16 + n_bits))

/-- One step of the bit-scanning loop of `Decode` (`Huffman.py` lines
169-175), on the state `(decoded_string, symb_being_decoded)`: append the
bit to the buffer and emit a symbol when the buffer is a key of the decode
map. -/
def decodeStep (code2symb : Dict) (st : Str × Str) (c : Char) : Str × Str :=
  let buf := st.2 ++ [c]
  match dfind code2symb buf with
  | some s => (st.1 ++ s, [])
  | none => (st.1, buf)

/-- The bit-scanning loop of `Decode` (`Huffman.py` lines 167-176).  A
trailing non-matching buffer is silently discarded (no error is raised). -/
def decodeScan (code2symb : Dict) (bits : Str) : Str :=
  (bits.foldl (decodeStep code2symb) ([], [])).1

/-- `HuffmanCode.Decode` (`Huffman.py` lines 143-176), a static method:
read the pad count and the symbol count, parse the header into the decode
map, strip the padding bits, and greedily scan the payload. -/
def Decode (encoded_bin_string : Str) : Except PyErr Str := do
  let n_pad ← binUint (encoded_bin_string.take 8)
  let n0 ← binUint ((encoded_bin_string.drop 8).take 8)
  let n_symb := n0 + 1
  let r ← parseHeaderLoop n_symb [] (encoded_bin_string.drop 16)
  let bin_to_decompress :=
    if 0 < n_pad then r.2.take (r.2.length - n_pad) else r.2
  pure (decodeScan r.1 bin_to_decompress)

/-! ### Generic lemmas about the dict model -/

theorem keys_append (d1 d2 : Dict) : keys (d1 ++ d2) = keys d1 ++ keys d2 := by
  simp [keys]

theorem mem_keys {d : Dict} {k : Str} : k ∈ keys d ↔ ∃ v, (k, v) ∈ d := by
  simp only [keys, List.mem_map]
  constructor
  · rintro ⟨p, hp, rfl⟩; exact ⟨p.2, hp⟩
  · rintro ⟨v, hv⟩; exact ⟨(k, v), hv, rfl⟩

theorem dmem_iff {d : Dict} {k : Str} : dmem d k = true ↔ k ∈ keys d := by
  induction d with
  | nil => simp [dmem, keys]
  | cons p t ih =>
    have hstep : dmem (p :: t) k = ((p.1 == k) || dmem t k) := rfl
    rw [hstep]
    simp only [Bool.or_eq_true, beq_iff_eq, keys, List.map_cons, List.mem_cons]
    rw [ih]
    constructor
    · rintro (he | hm)
      · exact Or.inl he.symm
      · exact Or.inr hm
    · rintro (he | hm)
      · exact Or.inl he.symm
      · exact Or.inr hm

theorem dfind_cons {p : Str × Str} {d : Dict} {k : Str} :
    dfind (p :: d) k = if p.1 = k then some p.2 else dfind d k := by
  by_cases h : p.1 = k
  · rw [if_pos h]
    simp only [dfind]
    rw [List.find?_cons_of_pos _ (by simpa using h)]
    rfl
  · rw [if_neg h]
    simp only [dfind]
    rw [List.find?_cons_of_neg _ (by simpa using h)]

theorem dfind_eq_none {d : Dict} {k : Str} : dfind d k = none ↔ k ∉ keys d := by
  induction d with
  | nil => simp [dfind, keys]
  | cons p t ih =>
    rw [dfind_cons]
    by_cases hp : p.1 = k
    · simp [hp, keys]
    · simp only [if_neg hp, ih, keys, List.map_cons, List.mem_cons]
      constructor
      · intro hn hor
        rcases hor with he | hm
        · exact hp he.symm
        · exact hn hm
      · intro hn hm
        exact hn (Or.inr hm)

theorem dfind_mem {d : Dict} {k v : Str} (h : dfind d k = some v) : (k, v) ∈ d := by
  induction d with
  | nil => simp [dfind] at h
  | cons p t ih =>
    rw [dfind_cons] at h
    by_cases hp : p.1 = k
    · rw [if_pos hp] at h
      have : p.2 = v := by injection h
      exact List.mem_cons.2 (Or.inl (by cases p; simp_all))
    · rw [if_neg hp] at h
      exact List.mem_cons.2 (Or.inr (ih h))

theorem dfind_isSome_iff {d : Dict} {k : Str} :
    (∃ v, dfind d k = some v) ↔ k ∈ keys d := by
  constructor
  · rintro ⟨v, hv⟩; exact mem_keys.2 ⟨v, dfind_mem hv⟩
  · intro hk
    cases h : dfind d k with
    | none => exact absurd (dfind_eq_none.1 h) (by simp [hk])
    | some v => exact ⟨v, rfl⟩

theorem dfind_of_mem_nodup {d : Dict} {k v : Str}
    (hnd : (keys d).Nodup) (h : (k, v) ∈ d) : dfind d k = some v := by
  induction d with
  | nil => cases h
  | cons p t ih =>
    simp only [keys, List.map_cons, List.nodup_cons] at hnd
    rcases List.mem_cons.1 h with heq | hmem
    · subst heq
      simp [dfind_cons]
    · have hk : k ∈ keys t := mem_keys.2 ⟨v, hmem⟩
      have hne : p.1 ≠ k := fun he => hnd.1 (by rw [he]; exact hk)
      rw [dfind_cons, if_neg hne]
      exact ih hnd.2 hmem

theorem dfind_append {d1 d2 : Dict} {k : Str} :
    dfind (d1 ++ d2) k = if k ∈ keys d1 then dfind d1 k else dfind d2 k := by
  induction d1 with
  | nil => simp [keys]
  | cons p t ih =>
    by_cases hp : p.1 = k
    · simp [dfind_cons, hp, keys]
    · rw [List.cons_append, dfind_cons, if_neg hp, ih, dfind_cons]
      by_cases hm : k ∈ keys t
      · have hmem : k ∈ keys (p :: t) := by
          simp only [keys, List.map_cons, List.mem_cons]
          exact Or.inr hm
        rw [if_pos hm, if_pos hmem, if_neg hp]
      · rw [if_neg hm, if_neg ?_]
        simp only [keys, List.map_cons, List.mem_cons]
        push_neg
        exact ⟨fun he => hp he.symm, hm⟩

theorem dset_of_not_mem {d : Dict} {k v : Str} (h : k ∉ keys d) :
    dset d k v = d ++ [(k, v)] := by
  have hm : dmem d k = false := by
    cases hm : dmem d k
    · rfl
    · exact absurd (dmem_iff.1 hm) h
  simp [dset, hm]

theorem keys_dset_of_mem {d : Dict} {k v : Str} (h : k ∈ keys d) :
    keys (dset d k v) = keys d := by
  rw [dset, if_pos (dmem_iff.2 h)]
  simp only [keys, List.map_map]
  apply List.map_congr_left
  intro p _
  by_cases hp : p.1 = k <;> simp [hp, Function.comp]

theorem dfind_setmap_self (d : Dict) (k v : Str) (h : k ∈ keys d) :
    dfind (d.map (fun p => if p.1 == k then (p.1, v) else p)) k = some v := by
  induction d with
  | nil => simp [keys] at h
  | cons p t ih =>
    by_cases hp : p.1 = k
    · have he : (if p.1 == k then (p.1, v) else p) = (p.1, v) := by simp [hp]
      rw [List.map_cons, he, dfind_cons, if_pos hp]
    · have he : (if p.1 == k then (p.1, v) else p) = p := by simp [hp]
      rw [List.map_cons, he, dfind_cons, if_neg hp]
      refine ih ?_
      rcases (by simpa [keys, List.mem_cons] using h : k = p.1 ∨ k ∈ keys t) with he2 | hm
      · exact absurd he2.symm hp
      · exact hm

theorem dfind_setmap_ne (d : Dict) (k v k' : Str) (h : k' ≠ k) :
    dfind (d.map (fun p => if p.1 == k then (p.1, v) else p)) k' = dfind d k' := by
  induction d with
  | nil => rfl
  | cons p t ih =>
    by_cases hp : p.1 = k
    · have he : (if p.1 == k then (p.1, v) else p) = (p.1, v) := by simp [hp]
      rw [List.map_cons, he, dfind_cons, dfind_cons]
      have hne : p.1 ≠ k' := by rw [hp]; exact Ne.symm h
      rw [if_neg hne, if_neg hne, ih]
    · have he : (if p.1 == k then (p.1, v) else p) = p := by simp [hp]
      rw [List.map_cons, he, dfind_cons, dfind_cons]
      by_cases hq : p.1 = k'
      · rw [if_pos hq, if_pos hq]
      · rw [if_neg hq, if_neg hq]
        exact ih

theorem dfind_dset_self {d : Dict} {k v : Str} (h : k ∈ keys d) :
    dfind (dset d k v) k = some v := by
  rw [dset, if_pos (dmem_iff.2 h)]
  exact dfind_setmap_self d k v h

theorem dfind_dset_ne {d : Dict} {k v k' : Str} (h : k' ≠ k) :
    dfind (dset d k v) k' = dfind d k' := by
  rw [dset]
  by_cases hm : dmem d k
  · rw [if_pos hm]
    exact dfind_setmap_ne d k v k' h
  · rw [if_neg hm, dfind_append]
    by_cases hk : k' ∈ keys d
    · rw [if_pos hk]
    · rw [if_neg hk, dfind_cons, if_neg (Ne.symm h)]
      exact (dfind_eq_none.2 hk).symm

theorem dfind_map_val {d : Dict} {f : Str → Str} {k : Str} :
    dfind (d.map (fun p => (p.1, f p.2))) k = (dfind d k).map f := by
  induction d with
  | nil => simp [dfind]
  | cons p t ih =>
    by_cases hp : p.1 = k
    · simp [dfind_cons, hp]
    · simp [dfind_cons, hp, ih]

theorem dfind_filter_key {d : Dict} {q : Str → Bool} {k : Str} :
    dfind (d.filter (fun p => q p.1)) k = if q k then dfind d k else none := by
  induction d with
  | nil => simp [dfind]
  | cons p t ih =>
    rw [List.filter_cons]
    by_cases hq : q p.1 = true
    · rw [if_pos hq, dfind_cons]
      by_cases hp : p.1 = k
      · rw [if_pos hp, if_pos (hp ▸ hq), dfind_cons, if_pos hp]
      · rw [if_neg hp, ih]
        by_cases hqk : q k = true
        · rw [if_pos hqk, if_pos hqk, dfind_cons, if_neg hp]
        · rw [if_neg hqk, if_neg hqk]
    · rw [if_neg hq, ih]
      by_cases hqk : q k = true
      · rw [if_pos hqk, if_pos hqk, dfind_cons, if_neg ?_]
        intro hp
        rw [hp] at hq
        exact hq hqk
      · rw [if_neg hqk, if_neg hqk]

theorem keys_filter_sublist {d : Dict} {q : Str → Bool} :
    List.Sublist (keys (d.filter (fun p => q p.1))) (keys d) := by
  simpa [keys] using List.Sublist.map Prod.fst (List.filter_sublist d)

/-! ### Bit strings, decimal tokens, and the regex -/

theorem isBits_append {s t : Str} : isBits (s ++ t) = (isBits s && isBits t) := by
  simp [isBits, List.all_append]

theorem isBits_cons {c : Char} {s : Str} : isBits (c :: s) = (isBit c && isBits s) := rfl

theorem digitChar_isDigit {d : Nat} (h : d < 10) : (digitChar d).isDigit = true := by
  interval_cases d <;> decide

/-- Proof-side value of a digit string, used to invert `natDec`. -/
def digitsVal (s : List Char) : Nat :=
  s.foldl (fun acc c => acc * 10 + (c.toNat - 48)) 0

theorem digitsVal_snoc (s : List Char) (c : Char) :
    digitsVal (s ++ [c]) = digitsVal s * 10 + (c.toNat - 48) := by
  simp [digitsVal, List.foldl_append]

theorem digitsVal_digitChar {d : Nat} (h : d < 10) :
    digitsVal [digitChar d] = d := by
  interval_cases d <;> decide

theorem natDecGo_digits {fuel n : Nat} (h : n ≤ fuel) :
    ∀ c ∈ natDecGo fuel n, c.isDigit = true := by
  induction fuel generalizing n with
  | zero =>
    intro c hc
    have hn : n = 0 := by omega
    subst hn
    simp only [natDecGo, List.mem_singleton, List.not_mem_nil, or_false] at hc
    subst hc
    exact digitChar_isDigit (by omega)
  | succ fuel ih =>
    intro c hc
    rw [natDecGo] at hc
    by_cases h10 : n < 10
    · rw [if_pos h10] at hc
      simp only [List.mem_singleton, List.not_mem_nil, or_false] at hc
      subst hc
      exact digitChar_isDigit h10
    · rw [if_neg h10] at hc
      rcases List.mem_append.1 hc with h1 | h2
      · have hd : n / 10 < n := Nat.div_lt_self (by omega) (by omega)
        exact ih (by omega) c h1
      · simp only [List.mem_singleton, List.not_mem_nil, or_false] at h2
        subst h2
        exact digitChar_isDigit (Nat.mod_lt _ (by omega))

theorem natDecGo_val {fuel n : Nat} (h : n ≤ fuel) :
    digitsVal (natDecGo fuel n) = n := by
  induction fuel generalizing n with
  | zero =>
    have hn : n = 0 := by omega
    subst hn
    simp only [natDecGo]
    exact digitsVal_digitChar (by omega)
  | succ fuel ih =>
    rw [natDecGo]
    by_cases h10 : n < 10
    · rw [if_pos h10]
      exact digitsVal_digitChar h10
    · rw [if_neg h10]
      rw [digitsVal_snoc]
      have hd : n / 10 < n := Nat.div_lt_self (by omega) (by omega)
      rw [ih (by omega)]
      have hgen : ∀ d, d < 10 → (digitChar d).toNat - 48 = d := by
        intro d hd10
        interval_cases d <;> decide
      rw [hgen _ (Nat.mod_lt _ (by omega))]
      omega

theorem natDecGo_ne_nil {fuel n : Nat} : natDecGo fuel n ≠ [] := by
  cases fuel with
  | zero => simp [natDecGo]
  | succ fuel =>
    rw [natDecGo]
    by_cases h10 : n < 10
    · simp [h10]
    · simp [h10]

theorem natDec_digits (n : Nat) : ∀ c ∈ natDec n, c.isDigit = true :=
  natDecGo_digits le_rfl

theorem natDec_ne_nil (n : Nat) : natDec n ≠ [] := natDecGo_ne_nil

theorem natDec_inj {a b : Nat} (h : natDec a = natDec b) : a = b := by
  have ha := natDecGo_val (le_refl a)
  have hb := natDecGo_val (le_refl b)
  rw [show natDecGo a a = natDec a from rfl] at ha
  rw [show natDecGo b b = natDec b from rfl] at hb
  rw [← ha, ← hb, h]

theorem takeDigits_spec {u r : Str} (hu : ∀ c ∈ u, c.isDigit = true)
    (hr : ∀ c, r.head? = some c → c.isDigit = false) :
    takeDigits (u ++ r) = (u, r) := by
  induction u with
  | nil =>
    cases r with
    | nil => rfl
    | cons c t =>
      have hc := hr c rfl
      simp [takeDigits, hc]
  | cons c t ih =>
    have hc := hu c (by simp)
    have ht : takeDigits (t ++ r) = (t, r) := ih (fun x hx => hu x (by simp [hx]))
    simp only [List.cons_append, takeDigits, hc, if_true]
    simp only [List.append_eq]
    rw [ht]

theorem codesnames_eq (n : Nat) :
    codesnames n = ['a', 'l', 'p', 'h', 'a'] ++ (natDec n ++ ['_', '_']) := by
  simp [codesnames]

theorem codesnames_length (n : Nat) : 8 ≤ (codesnames n).length := by
  rw [codesnames_eq]
  have h1 : 1 ≤ (natDec n).length := by
    cases hne : natDec n with
    | nil => exact absurd hne (natDec_ne_nil n)
    | cons a t => simp
  simp only [List.length_append, List.length_cons]
  simp
  omega

theorem patMatchSplit_codesnames (n : Nat) (w : Str) :
    patMatchSplit (codesnames n ++ w) = some (codesnames n, w) := by
  rw [codesnames_eq, List.append_assoc, List.append_assoc]
  unfold patMatchSplit
  have htk : (['a', 'l', 'p', 'h', 'a'] ++ (natDec n ++ (['_', '_'] ++ w))).take 5
      = ['a', 'l', 'p', 'h', 'a'] := by
    rw [show (5 : Nat) = (['a', 'l', 'p', 'h', 'a'] : Str).length from rfl]
    exact List.take_left ..
  have hdr : (['a', 'l', 'p', 'h', 'a'] ++ (natDec n ++ (['_', '_'] ++ w))).drop 5
      = natDec n ++ (['_', '_'] ++ w) := by
    rw [show (5 : Nat) = (['a', 'l', 'p', 'h', 'a'] : Str).length from rfl]
    exact List.drop_left ..
  rw [if_pos htk]
  have htd : takeDigits (natDec n ++ (['_', '_'] ++ w)) = (natDec n, ['_', '_'] ++ w) :=
    takeDigits_spec (natDec_digits n) (fun c hc => by
      simp only [List.head?] at hc
      injection hc with hc
      subst hc
      decide)
  rw [hdr, htd]
  rw [if_pos ⟨natDec_ne_nil n, by simp⟩]
  simp [htk, htd]

theorem patMatch_codesnames_append (n : Nat) (w : Str) :
    patMatch (codesnames n ++ w) = some (codesnames n) := by
  simp [patMatch, patMatchSplit_codesnames]

theorem patMatchSplit_bits {s : Str} (hs : isBits s = true) : patMatchSplit s = none := by
  cases s with
  | nil => rfl
  | cons c t =>
    have hc : isBit c = true := by
      rw [isBits_cons, Bool.and_eq_true] at hs
      exact hs.1
    unfold patMatchSplit
    rw [if_neg ?_]
    intro htk
    have : c = 'a' := by
      have := congrArg (fun l => l.head?) htk
      simpa [List.take, List.head?] using this
    subst this
    simp [isBit] at hc

theorem patMatch_bits {s : Str} (hs : isBits s = true) : patMatch s = none := by
  simp [patMatch, patMatchSplit_bits hs]

theorem reSubGo_succ (repl : Str) (fuel : Nat) (s : Str) :
    reSubGo repl (fuel + 1) s =
      match patMatchSplit s with
      | some p => repl ++ reSubGo repl fuel p.2
      | none =>
        match s with
        | [] => []
        | c :: rest => c :: reSubGo repl fuel rest := rfl

theorem reSubGo_bits {repl : Str} {fuel : Nat} {s : Str} (hs : isBits s = true)
    (h : s.length ≤ fuel) : reSubGo repl fuel s = s := by
  induction fuel generalizing s with
  | zero => rfl
  | succ fuel ih =>
    rw [reSubGo_succ, patMatchSplit_bits hs]
    cases s with
    | nil => rfl
    | cons c rest =>
      rw [isBits_cons, Bool.and_eq_true] at hs
      simp only [List.length_cons] at h
      show c :: reSubGo repl fuel rest = c :: rest
      rw [ih hs.2 (by omega)]

theorem reSub_bits {repl s : Str} (hs : isBits s = true) : reSub repl s = s :=
  reSubGo_bits hs le_rfl

theorem reSub_token (repl : Str) (n : Nat) (w : Str) (hw : isBits w = true) :
    reSub repl (codesnames n ++ w) = repl ++ w := by
  unfold reSub
  have hlen : (codesnames n ++ w).length = (codesnames n).length + w.length := by simp
  have h8 := codesnames_length n
  cases hL : (codesnames n ++ w).length with
  | zero => omega
  | succ L =>
    rw [reSubGo_succ, patMatchSplit_codesnames]
    show repl ++ reSubGo repl L w = repl ++ w
    rw [reSubGo_bits hw (by omega)]

/-! ### `natToBin` and `binToNat` -/

theorem natToBin_length (len n : Nat) : (natToBin len n).length = len := by
  induction len generalizing n with
  | zero => rfl
  | succ len ih => simp [natToBin, ih]

theorem natToBin_isBits (len n : Nat) : isBits (natToBin len n) = true := by
  induction len generalizing n with
  | zero => rfl
  | succ len ih =>
    rw [natToBin, isBits_append, ih]
    by_cases h : n % 2 == 1 <;> simp [h, isBits, isBit]

theorem binToNat_snoc (s : Str) (c : Char) :
    binToNat (s ++ [c]) = binToNat s * 2 + (if c == '1' then 1 else 0) := by
  simp [binToNat, List.foldl_append]

theorem binToNat_natToBin (len n : Nat) : binToNat (natToBin len n) = n % 2 ^ len := by
  induction len generalizing n with
  | zero =>
    simp [natToBin, binToNat]
    omega
  | succ len ih =>
    rw [natToBin, binToNat_snoc, ih]
    have hps : 2 ^ (len + 1) = 2 * 2 ^ len := by ring
    rw [hps, Nat.mod_mul]
    have hv : (if ((if n % 2 == 1 then '1' else '0') == '1') then (1 : Nat) else 0)
        = n % 2 := by
      cases hb : (n % 2 == 1) with
      | false =>
        have h0 : n % 2 = 0 := by
          have hne : ¬ n % 2 = 1 := by
            intro he
            rw [he] at hb
            simp at hb
          omega
        simp [hb, h0]
      | true =>
        have h1 : n % 2 = 1 := by
          have := of_decide_eq_true (by simpa [beq_iff_eq] using hb)
          exact this
        simp [hb, h1]
    rw [hv]
    omega

theorem binToNat_lt (s : Str) : binToNat s < 2 ^ s.length := by
  induction s using List.reverseRecOn with
  | nil => simp [binToNat]
  | append_singleton s c ih =>
    rw [binToNat_snoc]
    simp only [List.length_append, List.length_cons, List.length_nil]
    have hps : 2 ^ (s.length + 1) = 2 ^ s.length * 2 := by ring
    rw [hps]
    by_cases hc : c == '1' <;> simp [hc] <;> omega

theorem natToBin_binToNat {s : Str} (hs : isBits s = true) :
    natToBin s.length (binToNat s) = s := by
  induction s using List.reverseRecOn with
  | nil => rfl
  | append_singleton s c ih =>
    rw [isBits_append, Bool.and_eq_true] at hs
    have hsb := hs.1
    have hc : isBit c = true := by
      have h2 := hs.2
      simpa only [isBits, List.all_cons, List.all_nil, Bool.and_true] using h2
    rw [binToNat_snoc]
    simp only [List.length_append, List.length_cons, List.length_nil]
    rw [natToBin]
    have hN2 : (binToNat s * 2 + (if c == '1' then 1 else 0)) / 2 = binToNat s := by
      cases h : (c == '1') <;> simp [h] <;> omega
    have hNm : (binToNat s * 2 + (if c == '1' then 1 else 0)) % 2
        = (if c == '1' then 1 else 0) := by
      cases h : (c == '1') <;> simp [h] <;> omega
    rw [hN2, hNm, ih hsb]
    congr 1
    rcases (by simpa [isBit] using hc : c = '0' ∨ c = '1') with rfl | rfl <;> decide

/-! ### One-pass behaviour of `update_dictionary` -/

/-- Proof-side description of what one `update_dictionary` pass does to a
single value, when the dict does not change under its own feet (see
`update_dictionary_spec`). -/
def step1 (cd : Dict) (v : Str) : Str :=
  match patMatch v with
  | none => v
  | some tok =>
    match dfind cd tok with
    | none => v
    | some w => reSub w v

theorem updateStep_eq_none {cur : Dict} {k v : Str} (hv : dfind cur k = some v)
    (hpm : patMatch v = none) : updateStep cur k = cur := by
  simp only [updateStep, hv, hpm]

theorem updateStep_eq_tok_none {cur : Dict} {k v tok : Str}
    (hv : dfind cur k = some v) (hpm : patMatch v = some tok)
    (ht : dfind cur tok = none) : updateStep cur k = cur := by
  simp only [updateStep, hv, hpm, ht]

theorem updateStep_eq_tok_some {cur : Dict} {k v tok w : Str}
    (hv : dfind cur k = some v) (hpm : patMatch v = some tok)
    (ht : dfind cur tok = some w) : updateStep cur k = dset cur k (reSub w v) := by
  simp only [updateStep, hv, hpm, ht]

theorem dict_ext {d1 d2 : Dict} (hk : keys d1 = keys d2) (hnd : (keys d1).Nodup)
    (h : ∀ k, dfind d1 k = dfind d2 k) : d1 = d2 := by
  induction d1 generalizing d2 with
  | nil =>
    cases d2 with
    | nil => rfl
    | cons q t2 => simp [keys] at hk
  | cons p t1 ih =>
    cases d2 with
    | nil => simp [keys] at hk
    | cons q t2 =>
      simp only [keys, List.map_cons, List.cons.injEq] at hk
      have hpq1 : p.1 = q.1 := hk.1
      simp only [keys, List.map_cons, List.nodup_cons] at hnd
      have hh := h p.1
      rw [dfind_cons, dfind_cons, if_pos rfl, if_pos hpq1.symm] at hh
      have hpq2 : p.2 = q.2 := by injection hh
      have hpq : p = q := by
        cases p; cases q
        simp only at hpq1 hpq2
        rw [hpq1, hpq2]
      refine congrArg₂ (· :: ·) hpq (ih ?_ ?_ ?_)
      · exact hk.2
      · exact hnd.2
      · intro k
        by_cases hkp : k = p.1
        · have h1 : k ∉ keys t1 := by rw [hkp]; exact hnd.1
          have h2 : k ∉ keys t2 := by
            rw [hkp]
            intro hmem
            apply hnd.1
            rw [hk.2]
            exact hmem
          rw [dfind_eq_none.2 h1, dfind_eq_none.2 h2]
        · have hh := h k
          rw [dfind_cons, dfind_cons, if_neg (fun he => hkp he.symm),
            if_neg (fun he => hkp (hpq1 ▸ he.symm))] at hh
          exact hh

theorem update_fold_spec {cd : Dict}
    (hnd : (keys cd).Nodup)
    (hstab : ∀ k v tok w, dfind cd k = some v → patMatch v = some tok →
      dfind cd tok = some w → step1 cd w = w) :
    ∀ (rest done : List Str) (cur : Dict),
      keys cd = done ++ rest →
      keys cur = keys cd →
      (∀ k, k ∉ done → dfind cur k = dfind cd k) →
      (∀ k, k ∈ done → dfind cur k = (dfind cd k).map (step1 cd)) →
      keys (rest.foldl updateStep cur) = keys cd ∧
      ∀ k, dfind (rest.foldl updateStep cur) k =
        (if k ∈ done ++ rest then (dfind cd k).map (step1 cd) else dfind cd k) := by
  intro rest
  induction rest with
  | nil =>
    intro done cur hpart hkeys hfresh hdone
    refine ⟨hkeys, fun k => ?_⟩
    simp only [List.foldl_nil]
    by_cases hk : k ∈ done ++ []
    · rw [if_pos hk]
      exact hdone k (by simpa using hk)
    · rw [if_neg hk]
      exact hfresh k (by simpa using hk)
  | cons k0 rest ih =>
    intro done cur hpart hkeys hfresh hdone
    have hnd2 : (done ++ k0 :: rest).Nodup := hpart ▸ hnd
    have hdisj := (List.nodup_append.1 hnd2).2.2
    have hk0done : k0 ∉ done := fun hmem => hdisj hmem (by simp)
    have hk0mem : k0 ∈ keys cd := by rw [hpart]; simp
    obtain ⟨v, hv⟩ := dfind_isSome_iff.2 hk0mem
    have hvcur : dfind cur k0 = some v := by rw [hfresh k0 hk0done, hv]
    -- the replacement lookup agrees between `cur` and `cd`
    have hlook : ∀ tok, patMatch v = some tok → dfind cur tok = dfind cd tok := by
      intro tok hpm
      by_cases htd : tok ∈ done
      · rw [hdone tok htd]
        cases hcd : dfind cd tok with
        | none => rfl
        | some w =>
          show some (step1 cd w) = some w
          rw [hstab k0 v tok w hv hpm hcd]
      · exact hfresh tok htd
    -- effect of processing k0
    have hstep : keys (updateStep cur k0) = keys cd ∧
        dfind (updateStep cur k0) k0 = (dfind cd k0).map (step1 cd) ∧
        (∀ k, k ≠ k0 → dfind (updateStep cur k0) k = dfind cur k) := by
      cases hpm : patMatch v with
      | none =>
        rw [updateStep_eq_none hvcur hpm]
        refine ⟨hkeys, ?_, fun k _ => rfl⟩
        rw [hvcur, hv]
        show some v = some (step1 cd v)
        simp only [step1, hpm]
      | some tok =>
        cases hcd : dfind cd tok with
        | none =>
          rw [updateStep_eq_tok_none hvcur hpm ((hlook tok hpm).trans hcd)]
          refine ⟨hkeys, ?_, fun k _ => rfl⟩
          rw [hvcur, hv]
          show some v = some (step1 cd v)
          simp only [step1, hpm, hcd]
        | some w =>
          rw [updateStep_eq_tok_some hvcur hpm ((hlook tok hpm).trans hcd)]
          have hk0cur : k0 ∈ keys cur := by rw [hkeys]; exact hk0mem
          refine ⟨?_, ?_, fun k hk => dfind_dset_ne hk⟩
          · rw [keys_dset_of_mem hk0cur, hkeys]
          · rw [dfind_dset_self hk0cur, hv]
            show some (reSub w v) = some (step1 cd v)
            simp only [step1, hpm, hcd]
    -- apply the induction hypothesis with `k0` moved to the processed side
    have hmain := ih (done ++ [k0]) (updateStep cur k0)
      (by rw [hpart]; simp)
      hstep.1
      (by
        intro k hk
        have hkne : k ≠ k0 := by
          intro he
          exact hk (by simp [he])
        have hknd : k ∉ done := fun hmem => hk (by simp [hmem])
        rw [hstep.2.2 k hkne]
        exact hfresh k hknd)
      (by
        intro k hk
        rcases (by simpa using hk : k ∈ done ∨ k = k0) with hkd | rfl
        · have hkne : k ≠ k0 := by
            intro he
            subst he
            exact hk0done hkd
          rw [hstep.2.2 k hkne]
          exact hdone k hkd
        · exact hstep.2.1)
    refine ⟨hmain.1, fun k => ?_⟩
    rw [List.foldl_cons]
    rw [hmain.2 k]
    have hiff : k ∈ (done ++ [k0]) ++ rest ↔ k ∈ done ++ k0 :: rest := by
      simp [or_assoc]
    by_cases hk : k ∈ done ++ k0 :: rest
    · rw [if_pos hk, if_pos (hiff.2 hk)]
    · rw [if_neg hk, if_neg (fun hmem => hk (hiff.1 hmem))]

theorem update_dictionary_spec {cd : Dict}
    (hnd : (keys cd).Nodup)
    (hstab : ∀ k v tok w, dfind cd k = some v → patMatch v = some tok →
      dfind cd tok = some w → step1 cd w = w) :
    update_dictionary cd = cd.map (fun p => (p.1, step1 cd p.2)) := by
  have h := update_fold_spec hnd hstab (keys cd) [] cd (by simp) rfl
    (fun k _ => rfl) (fun k hk => absurd hk (List.not_mem_nil k))
  unfold update_dictionary
  refine dict_ext ?_ ?_ ?_
  · rw [h.1]
    simp [keys, List.map_map, Function.comp]
  · rw [h.1]
    exact hnd
  · intro k
    rw [h.2 k, dfind_map_val]
    by_cases hk : k ∈ keys cd
    · rw [if_pos (by simpa using hk)]
    · rw [if_neg (by simpa using hk)]
      rw [dfind_eq_none.2 hk]
      rfl

/-! ### The frequency table -/

theorem insertDesc_perm (x : Frac × Str) (l : List (Frac × Str)) :
    List.Perm (insertDesc x l) (x :: l) := by
  induction l with
  | nil => exact List.Perm.refl _
  | cons y ys ih =>
    rw [insertDesc]
    split
    · exact (ih.cons y).trans (List.Perm.swap x y ys)
    · exact List.Perm.refl _

theorem sortDesc_perm (l : List (Frac × Str)) : List.Perm (sortDesc l) l := by
  suffices h : ∀ acc, List.Perm (l.foldl (fun acc x => insertDesc x acc) acc) (acc ++ l) by
    simpa using h []
  induction l with
  | nil => intro acc; simp
  | cons y ys ih =>
    intro acc
    rw [List.foldl_cons]
    refine (ih (insertDesc y acc)).trans ?_
    refine (List.Perm.append_right ys (insertDesc_perm y acc)).trans ?_
    simpa using (List.perm_middle).symm

/-- The keys of the counts dict built by `make_frequency_tuples`. -/
def countKeys (c : List (Str × Nat)) : List Str := c.map Prod.fst

theorem countKeys_bump (c : List (Str × Nat)) (x : Str) :
    countKeys (bumpCount c x) =
      if x ∈ countKeys c then countKeys c else countKeys c ++ [x] := by
  by_cases hm : x ∈ countKeys c
  · have hb : c.any (fun p => p.1 == x) = true := by
      simp only [List.any_eq_true, beq_iff_eq]
      obtain ⟨p, hp, he⟩ : ∃ p ∈ c, p.1 = x := by
        obtain ⟨p, hp, he⟩ := List.mem_map.1 hm
        exact ⟨p, hp, he⟩
      exact ⟨p, hp, he⟩
    rw [if_pos hm]
    simp only [bumpCount, hb, if_true, countKeys, List.map_map]
    apply List.map_congr_left
    intro p _
    by_cases hp : p.1 = x <;> simp [hp, Function.comp]
  · have hb : c.any (fun p => p.1 == x) = false := by
      simp only [List.any_eq_false, beq_iff_eq]
      intro p hp he
      exact hm (List.mem_map.2 ⟨p, hp, he⟩)
    rw [if_neg hm]
    simp [bumpCount, hb, countKeys]

theorem countKeys_foldl_nodup {bl : List Str} :
    ∀ {c : List (Str × Nat)}, (countKeys c).Nodup →
      (countKeys (bl.foldl bumpCount c)).Nodup := by
  induction bl with
  | nil => intro c h; exact h
  | cons s t ih =>
    intro c h
    rw [List.foldl_cons]
    refine ih ?_
    rw [countKeys_bump]
    by_cases hm : s ∈ countKeys c
    · rw [if_pos hm]; exact h
    · rw [if_neg hm]
      simpa [List.nodup_append] using ⟨h, hm⟩

theorem countKeys_foldl_mem {bl : List Str} :
    ∀ {c : List (Str × Nat)} {y : Str},
      (y ∈ countKeys (bl.foldl bumpCount c) ↔ y ∈ countKeys c ∨ y ∈ bl) := by
  induction bl with
  | nil => intro c y; simp
  | cons s t ih =>
    intro c y
    rw [List.foldl_cons, ih, countKeys_bump]
    by_cases hm : s ∈ countKeys c
    · rw [if_pos hm]
      simp only [List.mem_cons]
      constructor
      · rintro (h | h)
        · exact Or.inl h
        · exact Or.inr (Or.inr h)
      · rintro (h | rfl | h)
        · exact Or.inl h
        · exact Or.inl hm
        · exact Or.inr h
    · rw [if_neg hm]
      simp only [List.mem_append, List.mem_singleton, List.not_mem_nil, or_false, List.mem_cons]
      tauto

theorem mft_snd_perm (bl : List Str) :
    List.Perm ((make_frequency_tuples bl).map Prod.snd)
      (countKeys (bl.foldl bumpCount [])) := by
  unfold make_frequency_tuples
  refine List.Perm.trans (List.Perm.map Prod.snd (sortDesc_perm _)) ?_
  have hmaps : ∀ (c : List (Str × Nat)) (tot : Nat),
      ((c.map (fun p => (p.2, p.1))).map
        (fun p : Nat × Str => (fracDiv p.1 tot, p.2))).map Prod.snd = countKeys c := by
    intro c tot
    induction c with
    | nil => rfl
    | cons p t ih =>
      simp only [countKeys] at ih ⊢
      simp only [List.map_cons, ih]
  rw [hmaps]

theorem mft_syms_nodup (bl : List Str) :
    ((make_frequency_tuples bl).map Prod.snd).Nodup :=
  (mft_snd_perm bl).nodup_iff.2 (countKeys_foldl_nodup (by simp [countKeys]))

theorem mft_syms_mem {bl : List Str} {s : Str} :
    s ∈ (make_frequency_tuples bl).map Prod.snd ↔ s ∈ bl := by
  rw [(mft_snd_perm bl).mem_iff, countKeys_foldl_mem]
  simp [countKeys]

/-! ### Tokens versus bytes, and prefix helpers -/

theorem isByte_codesnames (n : Nat) : isByte (codesnames n) = false := by
  have hb : isBits (codesnames n) = false := by
    rw [codesnames_eq]
    simp [isBits, isBit]
  simp [isByte, hb]

theorem byte_ne_codesnames {s : Str} (h : isByte s = true) (n : Nat) :
    s ≠ codesnames n := by
  intro he
  rw [he, isByte_codesnames] at h
  cases h

theorem codesnames_inj {a b : Nat} (h : codesnames a = codesnames b) : a = b := by
  rw [codesnames_eq, codesnames_eq] at h
  have h2 := List.append_cancel_left h
  have h3 := List.append_cancel_right h2
  exact natDec_inj h3

theorem tok_decomp_unique {n m : Nat} {w u : Str}
    (h : codesnames n ++ w = codesnames m ++ u) : n = m ∧ w = u := by
  have h1 := patMatchSplit_codesnames n w
  rw [h, patMatchSplit_codesnames m u] at h1
  injection h1 with h1
  have hfst : codesnames m = codesnames n := congrArg Prod.fst h1
  have hsnd : u = w := congrArg Prod.snd h1
  exact ⟨(codesnames_inj hfst).symm, hsnd.symm⟩

theorem patMatch_of_tok_append {v : Str} {n : Nat} {w : Str}
    (h : v = codesnames n ++ w) : patMatch v = some (codesnames n) := by
  rw [h]
  exact patMatch_codesnames_append n w

theorem not_prefix_of_head_ne {a b : Char} {u v : List Char} (h : a ≠ b) :
    ¬ ((a :: u) <+: (b :: v)) := by
  intro hp
  exact h (List.cons_prefix_cons.1 hp).1

theorem cons_prefix_same {a : Char} {u v : List Char} :
    ((a :: u) <+: (a :: v)) ↔ (u <+: v) := by
  rw [List.cons_prefix_cons]
  simp

theorem append_prefix_append {s u v : List Char} :
    ((s ++ u) <+: (s ++ v)) ↔ (u <+: v) := by
  induction s with
  | nil => simp
  | cons c t ih => simpa [cons_prefix_same] using ih

/-! ### The merge-loop invariant -/

/-- Invariant of the merge loop of `create_encoder_dictionary`, relating the
codes dict, the identities of the still-active frequency entries, the merge
counter, and the distinct symbols `syms` of the input.  `codes` maps each
merged-away identity to `codesnames n ++ w` where `codesnames n` is a still
active placeholder and `w` nonempty bits; for each placeholder the bit
suffixes attached to distinct real symbols are mutually prefix-free. -/
structure Inv (codes : Dict) (act : List Str) (ptr : Nat) (syms : List Str) : Prop where
  actNodup : act.Nodup
  keysNodup : (keys codes).Nodup
  disj : ∀ a ∈ act, a ∉ keys codes
  actKinds : ∀ a ∈ act, isByte a = true ∨ ∃ j, j < ptr ∧ a = codesnames j
  keyKinds : ∀ k ∈ keys codes, isByte k = true ∨ ∃ j, j < ptr ∧ k = codesnames j
  tokFresh : ∀ j, ptr ≤ j → codesnames j ∉ act ∧ codesnames j ∉ keys codes
  byteAcc : ∀ s, isByte s = true → ((s ∈ act ∨ s ∈ keys codes) ↔ s ∈ syms)
  count : ptr + act.length = syms.length
  valStruct : ∀ k v, dfind codes k = some v →
    ∃ n w, v = codesnames n ++ w ∧ codesnames n ∈ act ∧ isBits w = true ∧
      w ≠ [] ∧ w.length ≤ ptr
  pf : ∀ k1 k2 v1 v2 n w1 w2, k1 ≠ k2 → isByte k1 = true → isByte k2 = true →
    dfind codes k1 = some v1 → dfind codes k2 = some v2 →
    v1 = codesnames n ++ w1 → v2 = codesnames n ++ w2 →
    ¬ (w1 <+: w2)

theorem Inv_perm {codes : Dict} {act act' : List Str} {ptr : Nat} {syms : List Str}
    (hp : List.Perm act act') (h : Inv codes act ptr syms) : Inv codes act' ptr syms where
  actNodup := hp.nodup_iff.1 h.actNodup
  keysNodup := h.keysNodup
  disj := fun a ha => h.disj a (hp.mem_iff.2 ha)
  actKinds := fun a ha => h.actKinds a (hp.mem_iff.2 ha)
  keyKinds := h.keyKinds
  tokFresh := fun j hj =>
    ⟨fun hm => (h.tokFresh j hj).1 (hp.mem_iff.2 hm), (h.tokFresh j hj).2⟩
  byteAcc := fun s hs => by
    rw [← h.byteAcc s hs]
    constructor
    · rintro (hm | hm)
      · exact Or.inl (hp.mem_iff.2 hm)
      · exact Or.inr hm
    · rintro (hm | hm)
      · exact Or.inl (hp.mem_iff.1 hm)
      · exact Or.inr hm
  count := by rw [← hp.length_eq]; exact h.count
  valStruct := fun k v hv => by
    obtain ⟨n, w, h1, h2, h3, h4, h5⟩ := h.valStruct k v hv
    exact ⟨n, w, h1, hp.mem_iff.1 h2, h3, h4, h5⟩
  pf := h.pf

theorem keys_map_val {d : Dict} {f : Str → Str} :
    keys (d.map (fun p => (p.1, f p.2))) = keys d := by
  simp [keys, List.map_map, Function.comp]

/-- One iteration of the merge loop preserves the invariant: merging the two
least frequent identities `x` and `y` into the fresh placeholder
`codesnames ptr`. -/
theorem merge_step_inv {codes : Dict} {topIds : List Str} {x y : Str} {ptr : Nat}
    {syms : List Str}
    (hinv : Inv codes (topIds ++ [x, y]) ptr syms) :
    Inv (update_dictionary (dset (dset codes x (codesnames ptr ++ ['0'])) y
          (codesnames ptr ++ ['1'])))
      (topIds ++ [codesnames ptr]) (ptr + 1) syms := by
  set v0 : Str := codesnames ptr ++ ['0'] with hv0def
  set v1 : Str := codesnames ptr ++ ['1'] with hv1def
  have hxact : x ∈ topIds ++ [x, y] := by simp
  have hyact : y ∈ topIds ++ [x, y] := by simp
  have hnd_act := hinv.actNodup
  have hnd_parts := List.nodup_append.1 hnd_act
  have htopnodup : topIds.Nodup := hnd_parts.1
  have hxy : x ≠ y := by
    have h2 := hnd_parts.2.1
    simp only [List.nodup_cons, List.mem_singleton, List.not_mem_nil, or_false] at h2
    exact h2.1
  have hxtop : x ∉ topIds := fun hm => hnd_parts.2.2 hm (by simp)
  have hytop : y ∉ topIds := fun hm => hnd_parts.2.2 hm (by simp)
  have hxk : x ∉ keys codes := hinv.disj x hxact
  have hyk : y ∉ keys codes := hinv.disj y hyact
  have htokact : codesnames ptr ∉ topIds ++ [x, y] := (hinv.tokFresh ptr le_rfl).1
  have htokk : codesnames ptr ∉ keys codes := (hinv.tokFresh ptr le_rfl).2
  have htokx : codesnames ptr ≠ x := fun he => htokact (by rw [he]; exact hxact)
  have htoky : codesnames ptr ≠ y := fun he => htokact (by rw [he]; exact hyact)
  have htoktop : codesnames ptr ∉ topIds := fun hm => htokact (by simp [hm])
  -- the two `dset`s append fresh entries
  have hc2 : dset (dset codes x v0) y v1 = codes ++ [(x, v0), (y, v1)] := by
    rw [dset_of_not_mem hxk]
    rw [dset_of_not_mem (by
      rw [keys_append]
      simp only [List.mem_append, keys, List.map_cons, List.map_nil,
        List.mem_singleton, List.not_mem_nil, or_false, List.mem_cons]
      push_neg
      exact ⟨hyk, fun he => hxy he.symm⟩)]
    rw [List.append_assoc]
    rfl
  set codes2 : Dict := codes ++ [(x, v0), (y, v1)] with hc2def
  have hkeys2 : keys codes2 = keys codes ++ [x, y] := by
    rw [hc2def, keys_append]
    rfl
  have hknodup2 : (keys codes2).Nodup := by
    rw [hkeys2]
    rw [List.nodup_append]
    refine ⟨hinv.keysNodup, by simp [hxy], ?_⟩
    intro k hk hk2
    simp only [List.mem_cons, List.mem_singleton, List.not_mem_nil, or_false] at hk2
    rcases hk2 with rfl | rfl
    · exact hxk hk
    · exact hyk hk
  have hfind2old : ∀ k, k ∈ keys codes → dfind codes2 k = dfind codes k := by
    intro k hk
    rw [hc2def, dfind_append, if_pos hk]
  have hfind2x : dfind codes2 x = some v0 := by
    rw [hc2def, dfind_append, if_neg hxk, dfind_cons, if_pos rfl]
  have hfind2y : dfind codes2 y = some v1 := by
    rw [hc2def, dfind_append, if_neg hyk, dfind_cons, if_neg hxy, dfind_cons, if_pos rfl]
  have hfind2tok : dfind codes2 (codesnames ptr) = none := by
    refine dfind_eq_none.2 ?_
    rw [hkeys2]
    simp only [List.mem_append, List.mem_cons, List.mem_singleton, List.not_mem_nil, or_false]
    push_neg
    exact ⟨htokk, htokx, htoky⟩
  have hfind2top : ∀ n, codesnames n ∈ topIds → dfind codes2 (codesnames n) = none := by
    intro n hn
    refine dfind_eq_none.2 ?_
    rw [hkeys2]
    simp only [List.mem_append, List.mem_cons, List.mem_singleton, List.not_mem_nil, or_false]
    push_neg
    refine ⟨hinv.disj _ (by simp [hn]), ?_, ?_⟩
    · intro he; exact hxtop (he ▸ hn)
    · intro he; exact hytop (he ▸ hn)
  -- values of `codes2` looked up as replacements are stable under `step1`
  have hs_v0 : step1 codes2 v0 = v0 := by
    have hpm : patMatch v0 = some (codesnames ptr) := patMatch_codesnames_append ptr ['0']
    simp only [step1, hpm, hfind2tok]
  have hs_v1 : step1 codes2 v1 = v1 := by
    have hpm : patMatch v1 = some (codesnames ptr) := patMatch_codesnames_append ptr ['1']
    simp only [step1, hpm, hfind2tok]
  have hstab : ∀ k v tok' w', dfind codes2 k = some v → patMatch v = some tok' →
      dfind codes2 tok' = some w' → step1 codes2 w' = w' := by
    intro k v tok' w' hkv hpm htw
    by_cases hk : k ∈ keys codes
    · rw [hfind2old k hk] at hkv
      obtain ⟨n, w, hveq, hnact, hwbits, -, -⟩ := hinv.valStruct k v hkv
      have htokeq : tok' = codesnames n := by
        rw [patMatch_of_tok_append hveq] at hpm
        injection hpm with h
        exact h.symm
      subst htokeq
      rcases List.mem_append.1 hnact with htop | hxyn
      · rw [hfind2top n htop] at htw
        cases htw
      · simp only [List.mem_cons, List.mem_singleton, List.not_mem_nil, or_false] at hxyn
        rcases hxyn with he | he
        · rw [he, hfind2x] at htw
          injection htw with htw
          rw [← htw]
          exact hs_v0
        · rw [he, hfind2y] at htw
          injection htw with htw
          rw [← htw]
          exact hs_v1
    · by_cases hkx : k = x
      · rw [hkx, hfind2x] at hkv
        injection hkv with hkv
        rw [← hkv] at hpm
        have hpm0 : patMatch v0 = some (codesnames ptr) := patMatch_codesnames_append ptr ['0']
        rw [hpm0] at hpm
        injection hpm with hpm
        rw [← hpm, hfind2tok] at htw
        cases htw
      · by_cases hky : k = y
        · rw [hky, hfind2y] at hkv
          injection hkv with hkv
          rw [← hkv] at hpm
          have hpm1 : patMatch v1 = some (codesnames ptr) := patMatch_codesnames_append ptr ['1']
          rw [hpm1] at hpm
          injection hpm with hpm
          rw [← hpm, hfind2tok] at htw
          cases htw
        · have : dfind codes2 k = none := by
            refine dfind_eq_none.2 ?_
            rw [hkeys2]
            simp only [List.mem_append, List.mem_cons, List.mem_singleton, List.not_mem_nil, or_false]
            push_neg
            exact ⟨hk, hkx, hky⟩
          rw [this] at hkv
          cases hkv
  have hupd : update_dictionary codes2 = codes2.map (fun p => (p.1, step1 codes2 p.2)) :=
    update_dictionary_spec hknodup2 hstab
  rw [hc2, hupd]
  set codes3 : Dict := codes2.map (fun p => (p.1, step1 codes2 p.2)) with hc3def
  have hkeys3 : keys codes3 = keys codes ++ [x, y] := by
    rw [hc3def, keys_map_val, hkeys2]
  have hmap3 : ∀ k, dfind codes3 k = (dfind codes2 k).map (step1 codes2) := by
    intro k
    rw [hc3def, dfind_map_val]
  have hstep1_old : ∀ v n w, v = codesnames n ++ w → isBits w = true →
      codesnames n ∈ topIds ++ [x, y] →
      step1 codes2 v = (if codesnames n = x then v0 ++ w
        else if codesnames n = y then v1 ++ w else v) := by
    intro v n w hveq hw hmem
    have hpm := patMatch_of_tok_append hveq
    by_cases hx : codesnames n = x
    · rw [if_pos hx]
      have hf : dfind codes2 (codesnames n) = some v0 := by rw [hx]; exact hfind2x
      simp only [step1, hpm, hf]
      rw [hveq, hv0def]
      exact reSub_token _ _ _ hw
    · rw [if_neg hx]
      by_cases hy : codesnames n = y
      · rw [if_pos hy]
        have hf : dfind codes2 (codesnames n) = some v1 := by rw [hy]; exact hfind2y
        simp only [step1, hpm, hf]
        rw [hveq, hv1def]
        exact reSub_token _ _ _ hw
      · rw [if_neg hy]
        have htop : codesnames n ∈ topIds := by
          rcases List.mem_append.1 hmem with h | h
          · exact h
          · simp only [List.mem_cons, List.mem_singleton, List.not_mem_nil, or_false] at h
            rcases h with h | h
            · exact absurd h hx
            · exact absurd h hy
        simp only [step1, hpm, hfind2top n htop]
  -- canonical description of the values of `codes3`
  have hdesc : ∀ k v', dfind codes3 k = some v' →
      (k = x ∧ v' = v0) ∨ (k = y ∧ v' = v1) ∨
      (∃ u n w, dfind codes k = some u ∧ u = codesnames n ++ w ∧ isBits w = true ∧
        w ≠ [] ∧ w.length ≤ ptr ∧ k ∈ keys codes ∧
        ((codesnames n = x ∧ v' = v0 ++ w) ∨
         (codesnames n = y ∧ v' = v1 ++ w) ∨
         (codesnames n ∈ topIds ∧ v' = codesnames n ++ w))) := by
    intro k v' hkv
    rw [hmap3 k] at hkv
    by_cases hk : k ∈ keys codes
    · rw [hfind2old k hk] at hkv
      cases hu : dfind codes k with
      | none => rw [hu] at hkv; cases hkv
      | some u =>
        rw [hu] at hkv
        injection hkv with hkv
        obtain ⟨n, w, hueq, hnact, hwbits, hwne, hwlen⟩ := hinv.valStruct k u hu
        refine Or.inr (Or.inr ⟨u, n, w, rfl, hueq, hwbits, hwne, hwlen, hk, ?_⟩)
        rw [← hkv, hstep1_old u n w hueq hwbits hnact]
        by_cases hx : codesnames n = x
        · rw [if_pos hx]
          exact Or.inl ⟨hx, rfl⟩
        · rw [if_neg hx]
          by_cases hy : codesnames n = y
          · rw [if_pos hy]
            exact Or.inr (Or.inl ⟨hy, rfl⟩)
          · rw [if_neg hy]
            refine Or.inr (Or.inr ⟨?_, hueq⟩)
            rcases List.mem_append.1 hnact with h | h
            · exact h
            · simp only [List.mem_cons, List.mem_singleton, List.not_mem_nil, or_false] at h
              rcases h with h | h
              · exact absurd h hx
              · exact absurd h hy
    · by_cases hkx : k = x
      · rw [hkx, hfind2x] at hkv
        injection hkv with hkv
        exact Or.inl ⟨hkx, by rw [← hkv, hs_v0]⟩
      · by_cases hky : k = y
        · rw [hky, hfind2y] at hkv
          injection hkv with hkv
          exact Or.inr (Or.inl ⟨hky, by rw [← hkv, hs_v1]⟩)
        · have hnone : dfind codes2 k = none := by
            refine dfind_eq_none.2 ?_
            rw [hkeys2]
            simp only [List.mem_append, List.mem_cons, List.mem_singleton, List.not_mem_nil, or_false]
            push_neg
            exact ⟨hk, hkx, hky⟩
          rw [hnone] at hkv
          cases hkv
  constructor
  case actNodup =>
    rw [List.nodup_append]
    refine ⟨htopnodup, by simp, ?_⟩
    intro a ha ha2
    simp only [List.mem_singleton, List.not_mem_nil, or_false] at ha2
    rw [ha2] at ha
    exact htoktop ha
  case keysNodup =>
    rw [hkeys3]
    exact hkeys2 ▸ hknodup2
  case disj =>
    intro a ha
    rw [hkeys3]
    simp only [List.mem_append, List.mem_cons, List.mem_singleton, List.not_mem_nil, or_false] at ha ⊢
    push_neg
    rcases ha with ha | ha
    · exact ⟨hinv.disj a (by simp [ha]), fun he => hxtop (he ▸ ha),
        fun he => hytop (he ▸ ha)⟩
    · rw [ha]
      exact ⟨htokk, htokx, htoky⟩
  case actKinds =>
    intro a ha
    rcases List.mem_append.1 ha with ha | ha
    · rcases hinv.actKinds a (by simp [ha]) with h | ⟨j, hj, he⟩
      · exact Or.inl h
      · exact Or.inr ⟨j, by omega, he⟩
    · simp only [List.mem_singleton, List.not_mem_nil, or_false] at ha
      exact Or.inr ⟨ptr, by omega, ha⟩
  case keyKinds =>
    intro k hk
    rw [hkeys3] at hk
    rcases List.mem_append.1 hk with hk | hk
    · rcases hinv.keyKinds k hk with h | ⟨j, hj, he⟩
      · exact Or.inl h
      · exact Or.inr ⟨j, by omega, he⟩
    · simp only [List.mem_cons, List.mem_singleton, List.not_mem_nil, or_false] at hk
      rcases hk with rfl | rfl
      · rcases hinv.actKinds k hxact with h | ⟨j, hj, he⟩
        · exact Or.inl h
        · exact Or.inr ⟨j, by omega, he⟩
      · rcases hinv.actKinds k hyact with h | ⟨j, hj, he⟩
        · exact Or.inl h
        · exact Or.inr ⟨j, by omega, he⟩
  case tokFresh =>
    intro j hj
    have hold := hinv.tokFresh j (by omega)
    constructor
    · intro hm
      rcases List.mem_append.1 hm with hm | hm
      · exact hold.1 (by simp [hm])
      · simp only [List.mem_singleton, List.not_mem_nil, or_false] at hm
        have : j = ptr := codesnames_inj hm
        omega
    · rw [hkeys3]
      intro hm
      rcases List.mem_append.1 hm with hm | hm
      · exact hold.2 hm
      · simp only [List.mem_cons, List.mem_singleton, List.not_mem_nil, or_false] at hm
        rcases hm with hm | hm
        · exact hold.1 (by rw [hm]; exact hxact)
        · exact hold.1 (by rw [hm]; exact hyact)
  case byteAcc =>
    intro s hs
    rw [← hinv.byteAcc s hs, hkeys3]
    have hstok : s ≠ codesnames ptr := byte_ne_codesnames hs ptr
    simp only [List.mem_append, List.mem_cons, List.mem_singleton, List.not_mem_nil, or_false]
    constructor
    · rintro ((h | h) | (h | h | h))
      · exact Or.inl (Or.inl h)
      · exact absurd h hstok
      · exact Or.inr h
      · exact Or.inl (Or.inr (Or.inl h))
      · exact Or.inl (Or.inr (Or.inr h))
    · rintro ((h | h | h) | h)
      · exact Or.inl (Or.inl h)
      · exact Or.inr (Or.inr (Or.inl h))
      · exact Or.inr (Or.inr (Or.inr h))
      · exact Or.inr (Or.inl h)
  case count =>
    have hc := hinv.count
    simp only [List.length_append, List.length_cons, List.length_nil] at hc ⊢
    omega
  case valStruct =>
    intro k v' hkv
    rcases hdesc k v' hkv with ⟨-, hve⟩ | ⟨-, hve⟩ |
      ⟨u, n, w, -, -, hwbits, hwne, hwlen, -, hcase⟩
    · refine ⟨ptr, ['0'], hve, by simp, by decide, by simp,
        by simp only [List.length_cons, List.length_nil]; omega⟩
    · refine ⟨ptr, ['1'], hve, by simp, by decide, by simp,
        by simp only [List.length_cons, List.length_nil]; omega⟩
    · rcases hcase with ⟨-, hve⟩ | ⟨-, hve⟩ | ⟨htop, hve⟩
      · refine ⟨ptr, '0' :: w, ?_, by simp, ?_, by simp, ?_⟩
        · rw [hve, hv0def, List.append_assoc]
          rfl
        · rw [isBits_cons, hwbits]
          rfl
        · simp only [List.length_cons]
          omega
      · refine ⟨ptr, '1' :: w, ?_, by simp, ?_, by simp, ?_⟩
        · rw [hve, hv1def, List.append_assoc]
          rfl
        · rw [isBits_cons, hwbits]
          rfl
        · simp only [List.length_cons]
          omega
      · exact ⟨n, w, hve, by simp [htop], hwbits, hwne, by omega⟩
  case pf =>
    intro k1 k2 va vb n w1 w2 hne hb1 hb2 hf1 hf2 he1 he2
    have hsum : ∀ k v wv, dfind codes3 k = some v → v = codesnames n ++ wv →
        (n = ptr ∧ ((k = x ∧ wv = ['0']) ∨ (k = y ∧ wv = ['1']) ∨
          (∃ u m t, dfind codes k = some u ∧ u = codesnames m ++ t ∧
            codesnames m = x ∧ wv = '0' :: t) ∨
          (∃ u m t, dfind codes k = some u ∧ u = codesnames m ++ t ∧
            codesnames m = y ∧ wv = '1' :: t))) ∨
        (codesnames n ∈ topIds ∧ ∃ u, dfind codes k = some u ∧ u = codesnames n ++ wv) := by
      intro k v wv hfk hveq
      rcases hdesc k v hfk with ⟨hkx, hve⟩ | ⟨hky, hve⟩ |
        ⟨u, m, t, hu, hueq, -, -, -, -, hcase⟩
      · rw [hv0def] at hve
        have hd := tok_decomp_unique (hveq.symm.trans hve)
        exact Or.inl ⟨hd.1, Or.inl ⟨hkx, hd.2⟩⟩
      · rw [hv1def] at hve
        have hd := tok_decomp_unique (hveq.symm.trans hve)
        exact Or.inl ⟨hd.1, Or.inr (Or.inl ⟨hky, hd.2⟩)⟩
      · rcases hcase with ⟨hmx, hve⟩ | ⟨hmy, hve⟩ | ⟨hmtop, hve⟩
        · rw [hv0def] at hve
          have hve' : v = codesnames ptr ++ ('0' :: t) := by
            rw [hve, List.append_assoc]
            rfl
          have hd := tok_decomp_unique (hveq.symm.trans hve')
          exact Or.inl ⟨hd.1, Or.inr (Or.inr (Or.inl ⟨u, m, t, hu, hueq, hmx, hd.2⟩))⟩
        · rw [hv1def] at hve
          have hve' : v = codesnames ptr ++ ('1' :: t) := by
            rw [hve, List.append_assoc]
            rfl
          have hd := tok_decomp_unique (hveq.symm.trans hve')
          exact Or.inl ⟨hd.1, Or.inr (Or.inr (Or.inr ⟨u, m, t, hu, hueq, hmy, hd.2⟩))⟩
        · have hd := tok_decomp_unique (hveq.symm.trans hve)
          refine Or.inr ⟨by rw [hd.1]; exact hmtop, u, hu, ?_⟩
          rw [hueq, hd.1, hd.2]
    rcases hsum k1 va w1 hf1 he1 with ⟨hn1, hc1⟩ | ⟨hntop1, u1, hu1, hue1⟩
    · rcases hsum k2 vb w2 hf2 he2 with ⟨-, hc2⟩ | ⟨hntop2, -⟩
      · rcases hc1 with ⟨hk1x, hw1⟩ | ⟨hk1y, hw1⟩ |
          ⟨u1, m1, t1, hu1, hue1, hm1x, hw1⟩ | ⟨u1, m1, t1, hu1, hue1, hm1y, hw1⟩ <;>
          rcases hc2 with ⟨hk2x, hw2⟩ | ⟨hk2y, hw2⟩ |
            ⟨u2, m2, t2, hu2, hue2, hm2x, hw2⟩ | ⟨u2, m2, t2, hu2, hue2, hm2y, hw2⟩
        · exact absurd (hk1x.trans hk2x.symm) hne
        · rw [hw1, hw2]
          exact not_prefix_of_head_ne (by decide)
        · exact absurd hm2x.symm (byte_ne_codesnames (hk1x ▸ hb1) m2)
        · rw [hw1, hw2]
          exact not_prefix_of_head_ne (by decide)
        · rw [hw1, hw2]
          exact not_prefix_of_head_ne (by decide)
        · exact absurd (hk1y.trans hk2y.symm) hne
        · rw [hw1, hw2]
          exact not_prefix_of_head_ne (by decide)
        · exact absurd hm2y.symm (byte_ne_codesnames (hk1y ▸ hb1) m2)
        · exact absurd hm1x.symm (byte_ne_codesnames (hk2x ▸ hb2) m1)
        · rw [hw1, hw2]
          exact not_prefix_of_head_ne (by decide)
        · have hm12 : m1 = m2 := codesnames_inj (hm1x.trans hm2x.symm)
          subst hm12
          have hpfold := hinv.pf k1 k2 u1 u2 m1 t1 t2 hne hb1 hb2 hu1 hu2 hue1 hue2
          rw [hw1, hw2, cons_prefix_same]
          exact hpfold
        · rw [hw1, hw2]
          exact not_prefix_of_head_ne (by decide)
        · rw [hw1, hw2]
          exact not_prefix_of_head_ne (by decide)
        · exact absurd hm1y.symm (byte_ne_codesnames (hk2y ▸ hb2) m1)
        · rw [hw1, hw2]
          exact not_prefix_of_head_ne (by decide)
        · have hm12 : m1 = m2 := codesnames_inj (hm1y.trans hm2y.symm)
          subst hm12
          have hpfold := hinv.pf k1 k2 u1 u2 m1 t1 t2 hne hb1 hb2 hu1 hu2 hue1 hue2
          rw [hw1, hw2, cons_prefix_same]
          exact hpfold
      · rw [hn1] at hntop2
        exact (htoktop hntop2).elim
    · rcases hsum k2 vb w2 hf2 he2 with ⟨hn2, -⟩ | ⟨-, u2, hu2, hue2⟩
      · rw [hn2] at hntop1
        exact (htoktop hntop1).elim
      · exact hinv.pf k1 k2 u1 u2 n w1 w2 hne hb1 hb2 hu1 hu2 hue1 hue2

theorem buildLoopGo_succ (fuel : Nat) (codes : Dict) (freqs : List (Frac × Str)) (ptr : Nat) :
    buildLoopGo (fuel + 1) codes freqs ptr =
      if 2 < freqs.length then
        buildLoopGo fuel
          (update_dictionary (dset (dset codes
              ((freqs.drop (freqs.length - 2)).headD (⟨0, 1⟩, [])).2
              (codesnames ptr ++ ['0']))
            (((freqs.drop (freqs.length - 2)).drop 1).headD (⟨0, 1⟩, [])).2
            (codesnames ptr ++ ['1'])))
          (sortDesc (freqs.take (freqs.length - 2) ++
            [(Frac.add ((freqs.drop (freqs.length - 2)).headD (⟨0, 1⟩, [])).1
                (((freqs.drop (freqs.length - 2)).drop 1).headD (⟨0, 1⟩, [])).1,
              codesnames ptr)]))
          (ptr + 1)
      else (codes, freqs) := rfl

theorem freqs_decomp {freqs : List (Frac × Str)} (h : 2 ≤ freqs.length) :
    ∃ l0 l1, freqs.drop (freqs.length - 2) = [l0, l1] ∧
      freqs = freqs.take (freqs.length - 2) ++ [l0, l1] := by
  have hlen : (freqs.drop (freqs.length - 2)).length = 2 := by
    rw [List.length_drop]
    omega
  cases hd : freqs.drop (freqs.length - 2) with
  | nil => rw [hd] at hlen; simp at hlen
  | cons a t =>
    cases t with
    | nil => rw [hd] at hlen; simp at hlen
    | cons b t2 =>
      cases t2 with
      | cons c t3 =>
        rw [hd] at hlen
        simp at hlen
      | nil =>
        refine ⟨a, b, rfl, ?_⟩
        rw [← hd]
        exact (List.take_append_drop _ _).symm

theorem buildLoopGo_inv {syms : List Str} :
    ∀ (fuel : Nat) (codes : Dict) (freqs : List (Frac × Str)) (ptr : Nat),
      freqs.length ≤ fuel + 2 →
      Inv codes (freqs.map Prod.snd) ptr syms →
      (∃ ptrF, Inv (buildLoopGo fuel codes freqs ptr).1
        ((buildLoopGo fuel codes freqs ptr).2.map Prod.snd) ptrF syms) ∧
      (buildLoopGo fuel codes freqs ptr).2.length = min freqs.length 2 := by
  intro fuel
  induction fuel with
  | zero =>
    intro codes freqs ptr hlen hinv
    refine ⟨⟨ptr, hinv⟩, ?_⟩
    show freqs.length = min freqs.length 2
    omega
  | succ fuel ih =>
    intro codes freqs ptr hlen hinv
    rw [buildLoopGo_succ]
    by_cases h : 2 < freqs.length
    · rw [if_pos h]
      obtain ⟨l0, l1, hd, hfr⟩ := @freqs_decomp freqs (by omega)
      have hact : freqs.map Prod.snd =
          (freqs.take (freqs.length - 2)).map Prod.snd ++ [l0.2, l1.2] := by
        conv_lhs => rw [hfr]
        simp
      have hstep := merge_step_inv (hact ▸ hinv)
      have hperm : List.Perm
          ((sortDesc (freqs.take (freqs.length - 2) ++
            [(Frac.add l0.1 l1.1, codesnames ptr)])).map Prod.snd)
          ((freqs.take (freqs.length - 2)).map Prod.snd ++ [codesnames ptr]) := by
        refine List.Perm.trans (List.Perm.map Prod.snd (sortDesc_perm _)) ?_
        simp
      have hlen2 : (sortDesc (freqs.take (freqs.length - 2) ++
          [(Frac.add l0.1 l1.1, codesnames ptr)])).length = freqs.length - 1 := by
        rw [sortDesc_length]
        simp only [List.length_append, List.length_take, List.length_cons,
          List.length_nil]
        omega
      rw [hd]
      simp only [List.headD_cons, List.drop_succ_cons, List.drop_zero]
      have hmain := ih
        (update_dictionary (dset (dset codes l0.2 (codesnames ptr ++ ['0'])) l1.2
          (codesnames ptr ++ ['1'])))
        (sortDesc (freqs.take (freqs.length - 2) ++
          [(Frac.add l0.1 l1.1, codesnames ptr)]))
        (ptr + 1)
        (by rw [hlen2]; omega)
        (Inv_perm hperm.symm hstep)
      refine ⟨hmain.1, ?_⟩
      rw [hmain.2, hlen2]
      omega
    · rw [if_neg h]
      refine ⟨⟨ptr, hinv⟩, ?_⟩
      show freqs.length = min freqs.length 2
      omega

theorem initial_inv (bl : List Str) (hbytes : ∀ s ∈ bl, isByte s = true) :
    Inv [] ((make_frequency_tuples bl).map Prod.snd) 0
      ((make_frequency_tuples bl).map Prod.snd) where
  actNodup := mft_syms_nodup bl
  keysNodup := by simp [keys]
  disj := by simp [keys, dfind]
  actKinds := fun a ha => Or.inl (hbytes a (mft_syms_mem.1 ha))
  keyKinds := by simp [keys]
  tokFresh := fun j _ => by
    constructor
    · intro hm
      have hb := hbytes _ (mft_syms_mem.1 hm)
      rw [isByte_codesnames] at hb
      cases hb
    · simp [keys]
  byteAcc := fun s _ => by
    constructor
    · rintro (h | h)
      · exact h
      · simp [keys] at h
    · exact fun h => Or.inl h
  count := by simp
  valStruct := fun k v hv => by simp [dfind] at hv
  pf := fun k1 k2 v1 v2 n w1 w2 _ _ _ h1 _ _ _ => by simp [dfind] at h1

theorem keys_filter_key {d : Dict} {q : Str → Bool} :
    keys (d.filter (fun p => q p.1)) = (keys d).filter q := by
  induction d with
  | nil => rfl
  | cons p t ih =>
    rw [List.filter_cons]
    by_cases hq : q p.1 = true
    · rw [if_pos hq]
      show p.1 :: keys (t.filter (fun p => q p.1)) = (p.1 :: keys t).filter q
      rw [List.filter_cons, if_pos hq, ih]
    · rw [if_neg hq]
      show keys (t.filter (fun p => q p.1)) = (p.1 :: keys t).filter q
      rw [List.filter_cons, if_neg hq, ih]

theorem isBits_of_isByte {s : Str} (h : isByte s = true) : isBits s = true := by
  rw [isByte, Bool.and_eq_true] at h
  exact h.2

theorem length_of_isByte {s : Str} (h : isByte s = true) : s.length = 8 := by
  rw [isByte, Bool.and_eq_true] at h
  simpa using h.1

theorem patMatch_codesnames (n : Nat) : patMatch (codesnames n) = some (codesnames n) := by
  have := patMatch_codesnames_append n []
  rwa [List.append_nil] at this

/-- What `create_encoder_dictionary` guarantees about the table it returns:
keys are exactly the distinct input symbols, values are nonempty bit strings
bounded by `maxLen`, and the codewords are mutually prefix-free. -/
structure TableSpec (T : Dict) (syms : List Str) (maxLen : Nat) : Prop where
  keysNodup : (keys T).Nodup
  keysBytes : ∀ k ∈ keys T, isByte k = true
  domain : ∀ s, isByte s = true → (s ∈ keys T ↔ s ∈ syms)
  vals : ∀ k c, dfind T k = some c → isBits c = true ∧ c ≠ [] ∧ c.length ≤ maxLen
  pfree : ∀ k1 k2 c1 c2, k1 ≠ k2 → dfind T k1 = some c1 → dfind T k2 = some c2 →
    ¬ (c1 <+: c2)

/-- The finishing stage of `create_encoder_dictionary` (lines 86-92): assign
`'0'` and `'1'` to the last two identities, run a last substitution pass,
and strip placeholder keys. -/
theorem finish_table {codes : Dict} {a0 a1 : Str} {ptrF : Nat} {syms : List Str}
    (hinv : Inv codes [a0, a1] ptrF syms) :
    TableSpec ((update_dictionary (dset (dset codes a0 ['0']) a1 ['1'])).filter
        (fun p => (patMatch p.1).isNone)) syms (ptrF + 1) := by
  have ha0 : a0 ∈ ([a0, a1] : List Str) := by simp
  have ha1 : a1 ∈ ([a0, a1] : List Str) := by simp
  have ha01 : a0 ≠ a1 := by
    have := hinv.actNodup
    simp only [List.nodup_cons, List.mem_cons, List.not_mem_nil, or_false,
      List.mem_singleton, List.not_mem_nil, or_false] at this
    exact this.1
  have ha0k : a0 ∉ keys codes := hinv.disj a0 ha0
  have ha1k : a1 ∉ keys codes := hinv.disj a1 ha1
  have hc2 : dset (dset codes a0 ['0']) a1 ['1'] = codes ++ [(a0, ['0']), (a1, ['1'])] := by
    rw [dset_of_not_mem ha0k]
    rw [dset_of_not_mem (by
      rw [keys_append]
      simp only [List.mem_append, keys, List.map_cons, List.map_nil,
        List.mem_singleton, List.not_mem_nil, or_false, List.mem_cons]
      push_neg
      exact ⟨ha1k, fun he => ha01 he.symm⟩)]
    rw [List.append_assoc]
    rfl
  set codes2 : Dict := codes ++ [(a0, ['0']), (a1, ['1'])] with hc2def
  have hkeys2 : keys codes2 = keys codes ++ [a0, a1] := by
    rw [hc2def, keys_append]
    rfl
  have hknodup2 : (keys codes2).Nodup := by
    rw [hkeys2, List.nodup_append]
    refine ⟨hinv.keysNodup, by simp [ha01], ?_⟩
    intro k hk hk2
    simp only [List.mem_cons, List.mem_singleton, List.not_mem_nil, or_false] at hk2
    rcases hk2 with rfl | rfl
    · exact ha0k hk
    · exact ha1k hk
  have hfind2old : ∀ k, k ∈ keys codes → dfind codes2 k = dfind codes k := by
    intro k hk
    rw [hc2def, dfind_append, if_pos hk]
  have hfind2a0 : dfind codes2 a0 = some ['0'] := by
    rw [hc2def, dfind_append, if_neg ha0k, dfind_cons, if_pos rfl]
  have hfind2a1 : dfind codes2 a1 = some ['1'] := by
    rw [hc2def, dfind_append, if_neg ha1k, dfind_cons, if_neg ha01, dfind_cons,
      if_pos rfl]
  have hstab : ∀ k v tok' w', dfind codes2 k = some v → patMatch v = some tok' →
      dfind codes2 tok' = some w' → step1 codes2 w' = w' := by
    intro k v tok' w' hkv hpm htw
    by_cases hk : k ∈ keys codes
    · rw [hfind2old k hk] at hkv
      obtain ⟨n, w, hveq, hnact, -, -, -⟩ := hinv.valStruct k v hkv
      have htokeq : tok' = codesnames n := by
        rw [patMatch_of_tok_append hveq] at hpm
        injection hpm with h
        exact h.symm
      subst htokeq
      simp only [List.mem_cons, List.mem_singleton, List.not_mem_nil, or_false] at hnact
      rcases hnact with he | he
      · rw [he, hfind2a0] at htw
        injection htw with htw
        rw [← htw]
        simp only [step1, patMatch_bits (by decide : isBits ['0'] = true)]
      · rw [he, hfind2a1] at htw
        injection htw with htw
        rw [← htw]
        simp only [step1, patMatch_bits (by decide : isBits ['1'] = true)]
    · by_cases hk0 : k = a0
      · rw [hk0, hfind2a0] at hkv
        injection hkv with hkv
        rw [← hkv, patMatch_bits (by decide : isBits ['0'] = true)] at hpm
        cases hpm
      · by_cases hk1 : k = a1
        · rw [hk1, hfind2a1] at hkv
          injection hkv with hkv
          rw [← hkv, patMatch_bits (by decide : isBits ['1'] = true)] at hpm
          cases hpm
        · have : dfind codes2 k = none := by
            refine dfind_eq_none.2 ?_
            rw [hkeys2]
            simp only [List.mem_append, List.mem_cons, List.mem_singleton,
              List.not_mem_nil, or_false]
            push_neg
            exact ⟨hk, hk0, hk1⟩
          rw [this] at hkv
          cases hkv
  have hupd : update_dictionary codes2 = codes2.map (fun p => (p.1, step1 codes2 p.2)) :=
    update_dictionary_spec hknodup2 hstab
  rw [hc2, hupd]
  set codes3 : Dict := codes2.map (fun p => (p.1, step1 codes2 p.2)) with hc3def
  have hkeys3 : keys codes3 = keys codes ++ [a0, a1] := by
    rw [hc3def, keys_map_val, hkeys2]
  have hmap3 : ∀ k, dfind codes3 k = (dfind codes2 k).map (step1 codes2) := by
    intro k
    rw [hc3def, dfind_map_val]
  have hdesc : ∀ k v', dfind codes3 k = some v' →
      (k = a0 ∧ v' = ['0']) ∨ (k = a1 ∧ v' = ['1']) ∨
      (∃ u m w, dfind codes k = some u ∧ u = codesnames m ++ w ∧ isBits w = true ∧
        w ≠ [] ∧ w.length ≤ ptrF ∧ k ∈ keys codes ∧
        ((codesnames m = a0 ∧ v' = '0' :: w) ∨ (codesnames m = a1 ∧ v' = '1' :: w))) := by
    intro k v' hkv
    rw [hmap3 k] at hkv
    by_cases hk : k ∈ keys codes
    · rw [hfind2old k hk] at hkv
      cases hu : dfind codes k with
      | none => rw [hu] at hkv; cases hkv
      | some u =>
        rw [hu] at hkv
        injection hkv with hkv
        obtain ⟨m, w, hueq, hmact, hwbits, hwne, hwlen⟩ := hinv.valStruct k u hu
        refine Or.inr (Or.inr ⟨u, m, w, rfl, hueq, hwbits, hwne, hwlen, hk, ?_⟩)
        have hpm := patMatch_of_tok_append hueq
        simp only [List.mem_cons, List.mem_singleton, List.not_mem_nil, or_false]
          at hmact
        rcases hmact with he | he
        · refine Or.inl ⟨he, ?_⟩
          rw [← hkv]
          have hf : dfind codes2 (codesnames m) = some ['0'] := by
            rw [he]; exact hfind2a0
          simp only [step1, hpm, hf]
          rw [hueq, reSub_token _ _ _ hwbits]
          rfl
        · refine Or.inr ⟨he, ?_⟩
          rw [← hkv]
          have hf : dfind codes2 (codesnames m) = some ['1'] := by
            rw [he]; exact hfind2a1
          simp only [step1, hpm, hf]
          rw [hueq, reSub_token _ _ _ hwbits]
          rfl
    · by_cases hk0 : k = a0
      · rw [hk0, hfind2a0] at hkv
        injection hkv with hkv
        refine Or.inl ⟨hk0, ?_⟩
        rw [← hkv]
        simp only [step1, patMatch_bits (by decide : isBits ['0'] = true)]
      · by_cases hk1 : k = a1
        · rw [hk1, hfind2a1] at hkv
          injection hkv with hkv
          refine Or.inr (Or.inl ⟨hk1, ?_⟩)
          rw [← hkv]
          simp only [step1, patMatch_bits (by decide : isBits ['1'] = true)]
        · have hnone : dfind codes2 k = none := by
            refine dfind_eq_none.2 ?_
            rw [hkeys2]
            simp only [List.mem_append, List.mem_cons, List.mem_singleton,
              List.not_mem_nil, or_false]
            push_neg
            exact ⟨hk, hk0, hk1⟩
          rw [hnone] at hkv
          cases hkv
  -- all keys that survive the filter are bytes
  have hkbyte : ∀ k ∈ keys codes3, (patMatch k).isNone = true → isByte k = true := by
    intro k hk hq
    rw [hkeys3] at hk
    have hkind : isByte k = true ∨ ∃ j, j < ptrF ∧ k = codesnames j := by
      rcases List.mem_append.1 hk with hk | hk
      · rcases hinv.keyKinds k hk with h | ⟨j, hj, he⟩
        · exact Or.inl h
        · exact Or.inr ⟨j, hj, he⟩
      · simp only [List.mem_cons, List.mem_singleton, List.not_mem_nil, or_false] at hk
        rcases hk with rfl | rfl
        · rcases hinv.actKinds k ha0 with h | ⟨j, hj, he⟩
          · exact Or.inl h
          · exact Or.inr ⟨j, hj, he⟩
        · rcases hinv.actKinds k ha1 with h | ⟨j, hj, he⟩
          · exact Or.inl h
          · exact Or.inr ⟨j, hj, he⟩
    rcases hkind with h | ⟨j, -, he⟩
    · exact h
    · rw [he, patMatch_codesnames] at hq
      cases hq
  have hfindT : ∀ k, dfind (codes3.filter (fun p => (patMatch p.1).isNone)) k =
      if (patMatch k).isNone then dfind codes3 k else none :=
    fun k => @dfind_filter_key codes3 (fun s => (patMatch s).isNone) k
  have hkeysT : keys (codes3.filter (fun p => (patMatch p.1).isNone)) =
      (keys codes3).filter (fun s => (patMatch s).isNone) :=
    @keys_filter_key codes3 (fun s => (patMatch s).isNone)
  constructor
  case keysNodup =>
    rw [hkeysT]
    refine List.Nodup.filter _ ?_
    rw [hkeys3, ← hkeys2]
    exact hknodup2
  case keysBytes =>
    intro k hk
    rw [hkeysT, List.mem_filter] at hk
    exact hkbyte k hk.1 hk.2
  case domain =>
    intro s hs
    have hq : (patMatch s).isNone = true := by
      rw [patMatch_bits (isBits_of_isByte hs)]
      rfl
    rw [hkeysT, List.mem_filter]
    rw [← hinv.byteAcc s hs, hkeys3]
    simp only [List.mem_append, List.mem_cons, List.mem_singleton,
      List.not_mem_nil, or_false]
    constructor
    · rintro ⟨(h | h | h), -⟩
      · exact Or.inr h
      · exact Or.inl (Or.inl h)
      · exact Or.inl (Or.inr h)
    · rintro ((h | h) | h)
      · exact ⟨Or.inr (Or.inl h), hq⟩
      · exact ⟨Or.inr (Or.inr h), hq⟩
      · exact ⟨Or.inl h, hq⟩
  case vals =>
    intro k c hkc
    rw [hfindT] at hkc
    by_cases hq : (patMatch k).isNone = true
    · rw [if_pos hq] at hkc
      rcases hdesc k c hkc with ⟨-, hve⟩ | ⟨-, hve⟩ |
        ⟨u, m, w, -, -, hwbits, -, hwlen, -, hcase⟩
      · rw [hve]
        exact ⟨by decide, by simp, by simp⟩
      · rw [hve]
        exact ⟨by decide, by simp, by simp⟩
      · rcases hcase with ⟨-, hve⟩ | ⟨-, hve⟩ <;> rw [hve]
        · refine ⟨by rw [isBits_cons, hwbits]; rfl, by simp, ?_⟩
          simp only [List.length_cons]
          omega
        · refine ⟨by rw [isBits_cons, hwbits]; rfl, by simp, ?_⟩
          simp only [List.length_cons]
          omega
    · rw [if_neg hq] at hkc
      cases hkc
  case pfree =>
    intro k1 k2 c1 c2 hne hf1 hf2
    rw [hfindT] at hf1 hf2
    by_cases hq1 : (patMatch k1).isNone = true
    swap
    · rw [if_neg hq1] at hf1; cases hf1
    by_cases hq2 : (patMatch k2).isNone = true
    swap
    · rw [if_neg hq2] at hf2; cases hf2
    rw [if_pos hq1] at hf1
    rw [if_pos hq2] at hf2
    have hb1 : isByte k1 = true :=
      hkbyte k1 (mem_keys.2 ⟨c1, dfind_mem hf1⟩) hq1
    have hb2 : isByte k2 = true :=
      hkbyte k2 (mem_keys.2 ⟨c2, dfind_mem hf2⟩) hq2
    rcases hdesc k1 c1 hf1 with ⟨hk10, hv1⟩ | ⟨hk11, hv1⟩ |
        ⟨u1, m1, w1, hu1, hue1, -, -, -, -, hcase1⟩ <;>
      rcases hdesc k2 c2 hf2 with ⟨hk20, hv2⟩ | ⟨hk21, hv2⟩ |
        ⟨u2, m2, w2, hu2, hue2, -, -, -, -, hcase2⟩
    · exact absurd (hk10.trans hk20.symm) hne
    · rw [hv1, hv2]
      exact not_prefix_of_head_ne (by decide)
    · rcases hcase2 with ⟨hm2, hv2⟩ | ⟨hm2, hv2⟩
      · exact absurd hm2.symm (byte_ne_codesnames (hk10 ▸ hb1) m2)
      · rw [hv1, hv2]
        exact not_prefix_of_head_ne (by decide)
    · rw [hv1, hv2]
      exact not_prefix_of_head_ne (by decide)
    · exact absurd (hk11.trans hk21.symm) hne
    · rcases hcase2 with ⟨hm2, hv2⟩ | ⟨hm2, hv2⟩
      · rw [hv1, hv2]
        exact not_prefix_of_head_ne (by decide)
      · exact absurd hm2.symm (byte_ne_codesnames (hk11 ▸ hb1) m2)
    · rcases hcase1 with ⟨hm1, hv1⟩ | ⟨hm1, hv1⟩
      · exact absurd hm1.symm (byte_ne_codesnames (hk20 ▸ hb2) m1)
      · rw [hv1, hv2]
        exact not_prefix_of_head_ne (by decide)
    · rcases hcase1 with ⟨hm1, hv1⟩ | ⟨hm1, hv1⟩
      · rw [hv1, hv2]
        exact not_prefix_of_head_ne (by decide)
      · exact absurd hm1.symm (byte_ne_codesnames (hk21 ▸ hb2) m1)
    · rcases hcase1 with ⟨hm1, hv1⟩ | ⟨hm1, hv1⟩ <;>
        rcases hcase2 with ⟨hm2, hv2⟩ | ⟨hm2, hv2⟩
      · have hm12 : m1 = m2 := codesnames_inj (hm1.trans hm2.symm)
        subst hm12
        have hpfold := hinv.pf k1 k2 u1 u2 m1 w1 w2 hne hb1 hb2 hu1 hu2 hue1 hue2
        rw [hv1, hv2, cons_prefix_same]
        exact hpfold
      · rw [hv1, hv2]
        exact not_prefix_of_head_ne (by decide)
      · rw [hv1, hv2]
        exact not_prefix_of_head_ne (by decide)
      · have hm12 : m1 = m2 := codesnames_inj (hm1.trans hm2.symm)
        subst hm12
        have hpfold := hinv.pf k1 k2 u1 u2 m1 w1 w2 hne hb1 hb2 hu1 hu2 hue1 hue2
        rw [hv1, hv2, cons_prefix_same]
        exact hpfold

/-- `create_encoder_dictionary` on the frequency table of a byte list with at
least two distinct symbols succeeds, and the resulting table satisfies
`TableSpec` with codeword lengths bounded by the number of distinct symbols
minus one. -/
theorem create_encoder_spec {bl : List Str} (hbytes : ∀ s ∈ bl, isByte s = true)
    (hlen2 : 2 ≤ (make_frequency_tuples bl).length) :
    ∃ T, create_encoder_dictionary (make_frequency_tuples bl) = .ok T ∧
      TableSpec T ((make_frequency_tuples bl).map Prod.snd)
        ((make_frequency_tuples bl).length - 1) := by
  have hloop := buildLoopGo_inv (make_frequency_tuples bl).length []
    (make_frequency_tuples bl) 0 (by omega) (initial_inv bl hbytes)
  obtain ⟨⟨ptrF, hinvF⟩, hlenF⟩ := hloop
  set r := buildLoopGo (make_frequency_tuples bl).length [] (make_frequency_tuples bl) 0
    with hr
  have hfr2 : r.2.length = 2 := by
    rw [hlenF]
    omega
  cases hfr : r.2 with
  | nil => rw [hfr] at hfr2; simp at hfr2
  | cons f0 t =>
    cases t with
    | nil => rw [hfr] at hfr2; simp at hfr2
    | cons f1 t2 =>
      cases t2 with
      | cons f2 t3 => rw [hfr] at hfr2; simp at hfr2
      | nil =>
        rw [hfr] at hinvF
        have hcount := hinvF.count
        simp only [List.map_cons, List.map_nil, List.length_cons, List.length_nil]
          at hcount
        have hsl : ((make_frequency_tuples bl).map Prod.snd).length
            = (make_frequency_tuples bl).length := by simp
        have hpair : buildLoop [] (make_frequency_tuples bl) 0 = (r.1, [f0, f1]) := by
          rw [show buildLoop [] (make_frequency_tuples bl) 0 = r from rfl, ← hfr]
        have hcreate : create_encoder_dictionary (make_frequency_tuples bl) = .ok
            ((update_dictionary (dset (dset r.1 f0.2 ['0']) f1.2 ['1'])).filter
              (fun p => (patMatch p.1).isNone)) := by
          unfold create_encoder_dictionary
          rw [hpair]
        refine ⟨_, hcreate, ?_⟩
        have htbl := finish_table (by simpa using hinvF)
        have hml : ptrF + 1 = (make_frequency_tuples bl).length - 1 := by omega
        rw [← hml]
        exact htbl

theorem tablespec_length {T : Dict} {syms : List Str} {maxLen : Nat}
    (h : TableSpec T syms maxLen) (hsb : ∀ s ∈ syms, isByte s = true)
    (hsnd : syms.Nodup) : T.length = syms.length := by
  have hperm : List.Perm (keys T) syms := by
    rw [List.perm_ext_iff_of_nodup h.keysNodup hsnd]
    intro a
    by_cases hb : isByte a = true
    · exact h.domain a hb
    · constructor
      · intro hm
        exact absurd (h.keysBytes a hm) hb
      · intro hm
        exact absurd (hsb a hm) hb
  have hlen := hperm.length_eq
  simpa [keys] using hlen

/-! ### The encoding pipeline -/

/-- The codeword of symbol `s` in table `T` (defined when `s` is a key). -/
def codeOf (T : Dict) (s : Str) : Str := (dfind T s).getD []

theorem toUint8_ok {n : Nat} (h : n < 256) : toUint8 (n : Int) = .ok (natToBin 8 n) := by
  unfold toUint8
  rw [if_pos ⟨by omega, by exact_mod_cast h⟩]
  simp

theorem encodeSymbols_go {T : Dict} : ∀ (bl : List Str) (acc : Str),
    (∀ s ∈ bl, s ∈ keys T) →
    (bl.foldlM (fun acc s =>
      match dfind T s with
      | some c => pure (acc ++ c)
      | none => Except.error PyErr.keyError) acc : Except PyErr Str) =
    Except.ok (acc ++ (bl.map (codeOf T)).flatten) := by
  intro bl
  induction bl with
  | nil =>
    intro acc _
    show Except.ok acc = _
    simp
  | cons s t ih =>
    intro acc hmem
    obtain ⟨c, hc⟩ := dfind_isSome_iff.2 (hmem s (by simp))
    simp only [List.foldlM_cons, hc, pure_bind]
    rw [ih (acc ++ c) (fun s2 hs2 => hmem s2 (by simp [hs2]))]
    simp only [List.map_cons, List.flatten_cons, codeOf, hc, Option.getD_some]
    rw [List.append_assoc]

theorem encodeSymbols_ok {T : Dict} {bl : List Str} (h : ∀ s ∈ bl, s ∈ keys T) :
    encodeSymbols T bl = .ok ((bl.map (codeOf T)).flatten) := by
  unfold encodeSymbols
  rw [encodeSymbols_go bl [] h]
  rfl

/-- The per-symbol body of the header (lines 112-114). -/
def headerEntries (T : Dict) : Str :=
  (T.map (fun p => p.1 ++ natToBin 8 p.2.length ++ p.2)).flatten

theorem make_header_go {T : Dict}
    (hvals : ∀ p ∈ T, p.2.length ≤ 255) :
    ∀ acc : Str, (T.foldlM (fun acc p => do
      let nb ← toUint8 (p.2.length : Int)
      pure (acc ++ p.1 ++ nb ++ p.2)) acc : Except PyErr Str) =
      Except.ok (acc ++ headerEntries T) := by
  induction T with
  | nil =>
    intro acc
    show Except.ok acc = _
    simp [headerEntries]
  | cons p t ih =>
    intro acc
    have hu := toUint8_ok (n := p.2.length) (by
      have := hvals p (by simp)
      omega)
    simp only [List.foldlM_cons, hu, bind_assoc, pure_bind]
    rw [show ((Except.ok (natToBin 8 p.2.length) : Except PyErr Str) >>= fun nb =>
        List.foldlM (fun acc p => do
          let nb ← toUint8 ((p.2.length : Nat) : Int)
          pure (acc ++ p.1 ++ nb ++ p.2)) (acc ++ p.1 ++ nb ++ p.2) t)
      = List.foldlM (fun acc p => do
          let nb ← toUint8 ((p.2.length : Nat) : Int)
          pure (acc ++ p.1 ++ nb ++ p.2)) (acc ++ p.1 ++ natToBin 8 p.2.length ++ p.2) t
      from rfl]
    rw [ih (fun q hq => hvals q (by simp [hq]))]
    simp only [headerEntries, List.map_cons, List.flatten_cons]
    simp [List.append_assoc]

theorem make_header_ok {T : Dict} {bs : Str} (h1 : 1 ≤ T.length) (h2 : T.length ≤ 256)
    (hvals : ∀ p ∈ T, p.2.length ≤ 255) :
    make_header bs T = .ok (natToBin 8 (T.length - 1) ++ headerEntries T) := by
  unfold make_header
  have hu : toUint8 ((T.length : Int) - 1) = .ok (natToBin 8 (T.length - 1)) := by
    unfold toUint8
    rw [if_pos ⟨by omega, by omega⟩]
    have ht : ((T.length : Int) - 1).toNat = T.length - 1 := by omega
    rw [ht]
  rw [hu]
  show (T.foldlM (fun acc p => do
      let nb ← toUint8 (p.2.length : Int)
      pure (acc ++ p.1 ++ nb ++ p.2)) (natToBin 8 (T.length - 1)) : Except PyErr Str) = _
  rw [make_header_go hvals]

theorem except_ok_bind {ε α β : Type} (v : α) (f : α → Except ε β) :
    (Except.ok v >>= f : Except ε β) = f v := rfl

theorem except_map_ok {ε α β : Type} (v : α) (f : α → β) :
    (Except.ok v : Except ε α).map f = .ok (f v) := rfl

/-- Evaluation of the whole of `Encode` once its three fallible stages have
succeeded. -/
theorem Encode_ok {bl : List Str} {T : Dict} {orig hdr : Str}
    (hT : create_encoder_dictionary (make_frequency_tuples bl) = .ok T)
    (hsyms : encodeSymbols T bl = .ok orig)
    (hhdr : make_header orig T = .ok hdr) :
    Encode bl = .ok (natToBin 8 (8 - (hdr ++ orig).length % 8) ++ (hdr ++ orig) ++
      List.replicate (8 - (hdr ++ orig).length % 8) '0') := by
  have hpad := toUint8_ok (n := 8 - (hdr ++ orig).length % 8) (by omega)
  unfold Encode EncodeSt
  dsimp only
  rw [hT, except_ok_bind, hsyms, except_ok_bind, hhdr, except_ok_bind, hpad,
    except_ok_bind]
  rfl

theorem Encode_shape {bl : List Str} {e : Str} (h : Encode bl = .ok e) :
    ∃ body npad, npad = 8 - body.length % 8 ∧ 1 ≤ npad ∧ npad ≤ 8 ∧
      e = natToBin 8 npad ++ body ++ List.replicate npad '0' ∧
      e.length % 8 = 0 := by
  unfold Encode EncodeSt at h
  dsimp only at h
  cases hc : create_encoder_dictionary (make_frequency_tuples bl) with
  | error err =>
    rw [hc] at h
    cases h
  | ok T =>
    rw [hc, except_ok_bind] at h
    cases hs : encodeSymbols T bl with
    | error err =>
      rw [hs] at h
      cases h
    | ok orig =>
      rw [hs, except_ok_bind] at h
      cases hh : make_header orig T with
      | error err =>
        rw [hh] at h
        cases h
      | ok hdr =>
        rw [hh, except_ok_bind] at h
        rw [toUint8_ok (by omega), except_ok_bind] at h
        simp only [pure, Except.pure, Except.map] at h
        have he : e = natToBin 8 (8 - (hdr ++ orig).length % 8) ++ (hdr ++ orig) ++
            List.replicate (8 - (hdr ++ orig).length % 8) '0' := by
          injection h with h
          exact h.symm
        refine ⟨hdr ++ orig, 8 - (hdr ++ orig).length % 8, rfl, by omega, by omega, he, ?_⟩
        rw [he]
        simp only [List.length_append, natToBin_length, List.length_replicate]
        omega

theorem binUint_natToBin {len n : Nat} (hlen : 0 < len) (hn : n < 2 ^ len) :
    binUint (natToBin len n) = .ok n := by
  unfold binUint
  rw [if_pos (natToBin_isBits len n)]
  rw [if_neg (by
    rw [List.isEmpty_iff]
    intro he
    have := natToBin_length len n
    rw [he] at this
    simp at this
    omega)]
  rw [binToNat_natToBin, Nat.mod_eq_of_lt hn]

/-- A list of distinct bytes has at most 256 elements. -/
theorem bytes_nodup_le {l : List Str} (hb : ∀ s ∈ l, isByte s = true)
    (hnd : l.Nodup) : l.length ≤ 256 := by
  have hf : (l.map (fun s => (⟨binToNat s % 256, Nat.mod_lt _ (by omega)⟩ : Fin 256))).Nodup := by
    refine List.Nodup.map_on ?_ hnd
    intro s hs t ht he
    have hs8 : binToNat s < 256 := by
      have := binToNat_lt s
      rw [length_of_isByte (hb s hs)] at this
      simpa using this
    have ht8 : binToNat t < 256 := by
      have := binToNat_lt t
      rw [length_of_isByte (hb t ht)] at this
      simpa using this
    have hnat : binToNat s = binToNat t := by
      have := congrArg Fin.val he
      simpa [Nat.mod_eq_of_lt hs8, Nat.mod_eq_of_lt ht8] using this
    have h1 := natToBin_binToNat (isBits_of_isByte (hb s hs))
    have h2 := natToBin_binToNat (isBits_of_isByte (hb t ht))
    rw [length_of_isByte (hb s hs)] at h1
    rw [length_of_isByte (hb t ht)] at h2
    rw [← h1, ← h2, hnat]
  have hcard := hf.length_le_card
  rw [Fintype.card_fin, List.length_map] at hcard
  exact hcard

/-! ### Consequences of `TableSpec` for decoding -/

theorem tablespec_codes_pf {T : Dict} {syms : List Str} {maxLen : Nat}
    (h : TableSpec T syms maxLen) :
    ∀ p ∈ T, ∀ q ∈ T, p.2 <+: q.2 → p.2 = q.2 := by
  intro p hp q hq hpre
  by_cases hk : p.1 = q.1
  · have h1 := dfind_of_mem_nodup h.keysNodup (show (p.1, p.2) ∈ T from hp)
    have h2 := dfind_of_mem_nodup h.keysNodup (show (q.1, q.2) ∈ T from hq)
    rw [hk, h2] at h1
    injection h1 with h1
    exact h1.symm
  · exact absurd hpre (h.pfree p.1 q.1 p.2 q.2 hk
      (dfind_of_mem_nodup h.keysNodup (show (p.1, p.2) ∈ T from hp))
      (dfind_of_mem_nodup h.keysNodup (show (q.1, q.2) ∈ T from hq)))

theorem tablespec_vals_nodup {T : Dict} {syms : List Str} {maxLen : Nat}
    (h : TableSpec T syms maxLen) : (T.map Prod.snd).Nodup := by
  have hk : T.Pairwise (fun p q => p.1 ≠ q.1) := by
    have hn := h.keysNodup
    rw [keys] at hn
    exact (List.pairwise_map).1 hn
  have hv : T.Pairwise (fun p q => p.2 ≠ q.2) := by
    refine List.Pairwise.imp_of_mem ?_ hk
    intro p q hp hq hne he
    refine h.pfree p.1 q.1 p.2 q.2 hne
      (dfind_of_mem_nodup h.keysNodup (show (p.1, p.2) ∈ T from hp))
      (dfind_of_mem_nodup h.keysNodup (show (q.1, q.2) ∈ T from hq)) ?_
    rw [he]
  exact (List.pairwise_map).2 hv

theorem keys_swap {T : Dict} : keys (T.map (fun p => (p.2, p.1))) = T.map Prod.snd := by
  simp [keys, List.map_map, Function.comp]

theorem dfind_swap {T : Dict} (hvnd : (T.map Prod.snd).Nodup) {s c : Str}
    (hmem : (s, c) ∈ T) :
    dfind (T.map (fun p => (p.2, p.1))) c = some s := by
  refine dfind_of_mem_nodup ?_ ?_
  · rw [keys_swap]
    exact hvnd
  · exact List.mem_map.2 ⟨(s, c), hmem, rfl⟩

theorem parseHeaderLoop_succ (n : Nat) (code2symb : Dict) (btd : Str) :
    parseHeaderLoop (n + 1) code2symb btd = (do
      let n_bits ← binUint ((btd.drop 8).take 8)
      parseHeaderLoop n (dset code2symb ((btd.drop 16).take n_bits) (btd.take 8))
        (btd.drop (16 + n_bits))) := rfl

/-- Parsing the serialized entries of a valid table reconstructs the swapped
(codeword to symbol) dict and consumes exactly the header bits. -/
theorem parseHeaderLoop_ok {T : Dict}
    (hkeys : ∀ p ∈ T, p.1.length = 8)
    (hvals : ∀ p ∈ T, 1 ≤ p.2.length ∧ p.2.length ≤ 255)
    (hvnd : (T.map Prod.snd).Nodup) :
    ∀ (acc : Dict) (rest : Str), (∀ c ∈ T.map Prod.snd, c ∉ keys acc) →
    parseHeaderLoop T.length acc (headerEntries T ++ rest) =
      .ok (acc ++ T.map (fun p => (p.2, p.1)), rest) := by
  induction T with
  | nil =>
    intro acc rest _
    show Except.ok (acc, rest) = _
    simp [headerEntries]
  | cons p t ih =>
    intro acc rest haccf
    have hvnd2 : p.2 ∉ t.map Prod.snd ∧ (t.map Prod.snd).Nodup := by
      have hv := hvnd
      simp only [List.map_cons, List.nodup_cons] at hv
      exact hv
    have hp8 : p.1.length = 8 := hkeys p (by simp)
    obtain ⟨hL1, hL2⟩ := hvals p (by simp)
    have hstream : headerEntries (p :: t) ++ rest
        = p.1 ++ (natToBin 8 p.2.length ++ (p.2 ++ (headerEntries t ++ rest))) := by
      simp [headerEntries, List.append_assoc]
    rw [hstream]
    show parseHeaderLoop (t.length + 1) acc _ = _
    rw [parseHeaderLoop_succ]
    have hdrop8 : (p.1 ++ (natToBin 8 p.2.length ++ (p.2 ++ (headerEntries t ++ rest)))).drop 8
        = natToBin 8 p.2.length ++ (p.2 ++ (headerEntries t ++ rest)) :=
      List.drop_left' hp8
    have htake8 : (p.1 ++ (natToBin 8 p.2.length ++ (p.2 ++ (headerEntries t ++ rest)))).take 8
        = p.1 := List.take_left' hp8
    have hnb : ((p.1 ++ (natToBin 8 p.2.length ++ (p.2 ++ (headerEntries t ++ rest)))).drop 8).take 8
        = natToBin 8 p.2.length := by
      rw [hdrop8]
      exact List.take_left' (natToBin_length 8 p.2.length)
    rw [hnb, binUint_natToBin (by omega) (by omega), except_ok_bind]
    have hdrop16 : (p.1 ++ (natToBin 8 p.2.length ++ (p.2 ++ (headerEntries t ++ rest)))).drop 16
        = p.2 ++ (headerEntries t ++ rest) := by
      rw [show (16 : Nat) = 8 + 8 from rfl, ← List.drop_drop, hdrop8]
      exact List.drop_left' (natToBin_length 8 p.2.length)
    have hcode : ((p.1 ++ (natToBin 8 p.2.length ++ (p.2 ++ (headerEntries t ++ rest)))).drop 16).take
        p.2.length = p.2 := by
      rw [hdrop16]
      exact List.take_left' rfl
    have hdroprest : (p.1 ++ (natToBin 8 p.2.length ++ (p.2 ++ (headerEntries t ++ rest)))).drop
        (16 + p.2.length) = headerEntries t ++ rest := by
      rw [← List.drop_drop, hdrop16]
      exact List.drop_left' rfl
    rw [hcode, htake8, hdroprest]
    have hset : dset acc p.2 p.1 = acc ++ [(p.2, p.1)] :=
      dset_of_not_mem (haccf p.2 (by simp))
    rw [hset]
    rw [ih (fun q hq => hkeys q (by simp [hq])) (fun q hq => hvals q (by simp [hq]))
      hvnd2.2 (acc ++ [(p.2, p.1)]) rest ?_]
    · rw [List.append_assoc]
      rfl
    · intro c hc
      rw [keys_append]
      simp only [List.mem_append, keys, List.map_cons, List.map_nil,
        List.mem_singleton, List.not_mem_nil, or_false]
      push_neg
      refine ⟨haccf c (by simp [hc]), ?_⟩
      intro he
      exact hvnd2.1 (he ▸ hc)

/-! ### Greedy scanning of concatenated codewords -/

theorem swap_strict_pre_none {T : Dict} {syms : List Str} {maxLen : Nat}
    (h : TableSpec T syms maxLen) {w b : Str}
    (hw : w ∈ T.map Prod.snd) (hb : b <+: w) (hbne : b ≠ w) :
    dfind (T.map (fun p => (p.2, p.1))) b = none := by
  rw [dfind_eq_none, keys_swap]
  intro hmem
  obtain ⟨p, hp, hpb⟩ := List.mem_map.1 hmem
  obtain ⟨q, hq, hqw⟩ := List.mem_map.1 hw
  subst hpb
  subst hqw
  exact hbne (tablespec_codes_pf h p hp q hq hb)

theorem scan_consume (D : Dict) (w s : Str) (hfind : dfind D w = some s)
    (hpre : ∀ b, b ≠ [] → b ≠ w → b <+: w → dfind D b = none) :
    ∀ (c pre : Str), pre ++ c = w → c ≠ [] →
    ∀ (out rest : Str),
      (c ++ rest).foldl (decodeStep D) (out, pre) =
        rest.foldl (decodeStep D) (out ++ s, []) := by
  intro c
  induction c with
  | nil =>
    intro pre _ hne
    exact absurd rfl hne
  | cons x tl ih =>
    intro pre hw _ out rest
    cases tl with
    | nil =>
      have hbuf : pre ++ [x] = w := by simpa using hw
      simp only [List.cons_append, List.nil_append, List.foldl_cons]
      rw [show decodeStep D (out, pre) x = (out ++ s, []) from by
        unfold decodeStep
        dsimp only
        rw [hbuf, hfind]]
    | cons y tl2 =>
      have hbufpre : (pre ++ [x]) <+: w := by
        refine ⟨y :: tl2, ?_⟩
        rw [← hw]
        simp
      have hbufne : pre ++ [x] ≠ w := by
        intro he
        have hlen := congrArg List.length he
        rw [← hw] at hlen
        simp at hlen
      have hnone : dfind D (pre ++ [x]) = none :=
        hpre _ (by simp) hbufne hbufpre
      simp only [List.cons_append, List.foldl_cons]
      rw [show decodeStep D (out, pre) x = (out, pre ++ [x]) from by
        unfold decodeStep
        dsimp only
        rw [hnone]]
      exact ih (pre ++ [x]) (by rw [← hw]; simp) (by simp) out rest

theorem decodeScan_flatten_go {T : Dict} {syms : List Str} {maxLen : Nat}
    (h : TableSpec T syms maxLen) :
    ∀ (bl : List Str) (out : Str), (∀ s ∈ bl, s ∈ keys T) →
      ((bl.map (codeOf T)).flatten).foldl (decodeStep (T.map fun p => (p.2, p.1)))
          (out, []) = (out ++ bl.flatten, []) := by
  intro bl
  induction bl with
  | nil =>
    intro out _
    simp
  | cons s tl ih =>
    intro out hmem
    have hs : s ∈ keys T := hmem s (by simp)
    obtain ⟨c, hc⟩ := dfind_isSome_iff.2 hs
    obtain ⟨_, hcne, _⟩ := h.vals s c hc
    have hcw : c ∈ T.map Prod.snd := List.mem_map.2 ⟨(s, c), dfind_mem hc, rfl⟩
    have hfindD : dfind (T.map fun p => (p.2, p.1)) c = some s :=
      dfind_swap (tablespec_vals_nodup h) (dfind_mem hc)
    have hco : codeOf T s = c := by
      rw [codeOf, hc]
      rfl
    have hstep := scan_consume (T.map fun p => (p.2, p.1)) c s hfindD
      (fun b hb1 hb2 hb3 => swap_strict_pre_none h hcw hb3 hb2) c [] rfl hcne out
      ((tl.map (codeOf T)).flatten)
    simp only [List.map_cons, List.flatten_cons, hco]
    rw [hstep, ih (out ++ s) (fun q hq => hmem q (by simp [hq]))]
    simp

theorem decodeScan_flatten {T : Dict} {syms : List Str} {maxLen : Nat}
    (h : TableSpec T syms maxLen) {bl : List Str} (hmem : ∀ s ∈ bl, s ∈ keys T) :
    decodeScan (T.map fun p => (p.2, p.1)) ((bl.map (codeOf T)).flatten)
      = bl.flatten := by
  unfold decodeScan
  rw [decodeScan_flatten_go h bl [] hmem]
  simp

/-- Decoding a stream produced from a valid table: pad byte, count byte,
serialized entries, concatenated codewords, zero padding. -/
theorem Decode_encode {T : Dict} {syms : List Str} {maxLen : Nat} {bl : List Str}
    {npad : Nat} (h : TableSpec T syms maxLen) (hmax : maxLen ≤ 255)
    (h1 : 1 ≤ T.length) (h2 : T.length ≤ 256) (hnp1 : 1 ≤ npad) (hnp8 : npad ≤ 8)
    (hmem : ∀ s ∈ bl, s ∈ keys T) :
    Decode (natToBin 8 npad ++ ((natToBin 8 (T.length - 1) ++ headerEntries T) ++
        (bl.map (codeOf T)).flatten) ++ List.replicate npad '0') = .ok bl.flatten := by
  set orig := (bl.map (codeOf T)).flatten with horig
  have hE : natToBin 8 npad ++ ((natToBin 8 (T.length - 1) ++ headerEntries T) ++
        orig) ++ List.replicate npad '0'
      = natToBin 8 npad ++ (natToBin 8 (T.length - 1) ++
        (headerEntries T ++ (orig ++ List.replicate npad '0'))) := by
    simp [List.append_assoc]
  rw [hE]
  set E := natToBin 8 npad ++ (natToBin 8 (T.length - 1) ++
    (headerEntries T ++ (orig ++ List.replicate npad '0'))) with hEdef
  have htk8 : E.take 8 = natToBin 8 npad := by
    rw [hEdef]
    exact List.take_left' (natToBin_length 8 npad)
  have hdr8 : E.drop 8 = natToBin 8 (T.length - 1) ++
      (headerEntries T ++ (orig ++ List.replicate npad '0')) := by
    rw [hEdef]
    exact List.drop_left' (natToBin_length 8 npad)
  have htk16 : (E.drop 8).take 8 = natToBin 8 (T.length - 1) := by
    rw [hdr8]
    exact List.take_left' (natToBin_length 8 (T.length - 1))
  have hdr16 : E.drop 16 = headerEntries T ++ (orig ++ List.replicate npad '0') := by
    rw [show (16 : Nat) = 8 + 8 from rfl, ← List.drop_drop, hdr8]
    exact List.drop_left' (natToBin_length 8 (T.length - 1))
  have hparse := parseHeaderLoop_ok
    (fun p hp => length_of_isByte (h.keysBytes p.1
      (mem_keys.2 ⟨p.2, hp⟩)))
    (fun p hp => by
      have hf : dfind T p.1 = some p.2 := dfind_of_mem_nodup h.keysNodup hp
      obtain ⟨_, hne, hle⟩ := h.vals p.1 p.2 hf
      exact ⟨by
        cases hq : p.2 with
        | nil => exact absurd hq hne
        | cons a b => simp, by omega⟩)
    (tablespec_vals_nodup h) ([] : Dict) (orig ++ List.replicate npad '0')
    (by simp [keys])
  unfold Decode
  dsimp only
  rw [htk8, binUint_natToBin (by omega) (by omega), except_ok_bind,
    htk16, binUint_natToBin (by omega) (by omega), except_ok_bind,
    show T.length - 1 + 1 = T.length from by omega, hdr16, hparse, except_ok_bind]
  dsimp only
  rw [if_pos (by omega)]
  have hcut : (orig ++ List.replicate npad '0').length - npad = orig.length := by
    simp
  rw [hcut, List.take_left' rfl]
  rw [show (([] : Dict) ++ T.map fun p => (p.2, p.1)) = T.map fun p => (p.2, p.1)
    from by simp]
  rw [decodeScan_flatten h hmem]
  rfl

/-- Full round-trip: on a byte list with at least two distinct symbols,
`Encode` succeeds and `Decode` recovers the concatenation of the input
bytes (the original file contents as a bit string). -/
theorem roundtrip {bl : List Str} (hbytes : ∀ s ∈ bl, isByte s = true)
    (hlen2 : 2 ≤ (make_frequency_tuples bl).length) :
    ∃ e, Encode bl = .ok e ∧ Decode e = .ok bl.flatten := by
  obtain ⟨T, hT, hspec⟩ := create_encoder_spec hbytes hlen2
  have hsymsb : ∀ s ∈ (make_frequency_tuples bl).map Prod.snd, isByte s = true :=
    fun s hs => hbytes s (mft_syms_mem.1 hs)
  have hTlen : T.length = (make_frequency_tuples bl).length := by
    have := tablespec_length hspec hsymsb (mft_syms_nodup bl)
    simpa using this
  have hT1 : 1 ≤ T.length := by omega
  have hT256 : T.length ≤ 256 := by
    have hkb := bytes_nodup_le (fun s hs => hspec.keysBytes s hs) hspec.keysNodup
    have : (keys T).length = T.length := by simp [keys]
    omega
  have hmem : ∀ s ∈ bl, s ∈ keys T := fun s hs =>
    (hspec.domain s (hbytes s hs)).2 (mft_syms_mem.2 hs)
  obtain ⟨orig, hsyms⟩ : ∃ orig, encodeSymbols T bl = .ok orig :=
    ⟨_, encodeSymbols_ok hmem⟩
  have horig : orig = (bl.map (codeOf T)).flatten := by
    have := encodeSymbols_ok hmem
    rw [hsyms] at this
    injection this
  have hvals255 : ∀ p ∈ T, p.2.length ≤ 255 := by
    intro p hp
    have hf : dfind T p.1 = some p.2 := dfind_of_mem_nodup hspec.keysNodup hp
    obtain ⟨_, _, hle⟩ := hspec.vals p.1 p.2 hf
    omega
  have hhdr := @make_header_ok T orig hT1 hT256 hvals255
  set hdr := natToBin 8 (T.length - 1) ++ headerEntries T with hhdrdef
  refine ⟨_, Encode_ok hT hsyms hhdr, ?_⟩
  have hnp1 : 1 ≤ 8 - (hdr ++ orig).length % 8 := by omega
  have hnp8 : 8 - (hdr ++ orig).length % 8 ≤ 8 := by omega
  have hdec := Decode_encode hspec (by omega) hT1 hT256 hnp1 hnp8 hmem
  rw [← horig, ← hhdrdef] at hdec
  exact hdec

/-! ### Inputs with fewer than two distinct symbols -/

theorem buildLoopGo_stop (fuel : Nat) (codes : Dict) (freqs : List (Frac × Str))
    (ptr : Nat) (h : freqs.length ≤ 2) :
    buildLoopGo fuel codes freqs ptr = (codes, freqs) := by
  cases fuel with
  | zero => rfl
  | succ f => rw [buildLoopGo_succ, if_neg (by omega)]

/-- With zero or one frequency entries the merge loop never runs and the
indexings `freqs[0][1]` / `freqs[1][1]` raise `IndexError`. -/
theorem create_err_of_short {freqs : List (Frac × Str)} (h : freqs.length ≤ 1) :
    create_encoder_dictionary freqs = .error .indexError := by
  cases freqs with
  | nil => rfl
  | cons f t =>
    cases t with
    | nil => rfl
    | cons g u =>
      exfalso
      simp only [List.length_cons] at h
      omega

theorem Encode_err_of_short {bl : List Str}
    (h : (make_frequency_tuples bl).length ≤ 1) :
    Encode bl = .error .indexError := by
  unfold Encode EncodeSt
  dsimp only
  rw [create_err_of_short h]
  rfl

theorem mft_length (bl : List Str) :
    (make_frequency_tuples bl).length = (bl.foldl bumpCount []).length := by
  have hp := (mft_snd_perm bl).length_eq
  simpa [countKeys] using hp

theorem bump_foldl_replicate (s : Str) :
    ∀ (n k : Nat), (List.replicate n s).foldl bumpCount [(s, k)] = [(s, k + n)] := by
  intro n
  induction n with
  | zero =>
    intro k
    simp
  | succ m ih =>
    intro k
    rw [List.replicate_succ, List.foldl_cons]
    have hb : bumpCount [(s, k)] s = [(s, k + 1)] := by
      simp [bumpCount]
    rw [hb, ih (k + 1)]
    have hk : k + 1 + m = k + (m + 1) := by omega
    rw [hk]

theorem counts_replicate {n : Nat} (hn : 1 ≤ n) (s : Str) :
    (List.replicate n s).foldl bumpCount [] = [(s, n)] := by
  cases n with
  | zero => omega
  | succ m =>
    rw [List.replicate_succ, List.foldl_cons]
    have hb : bumpCount [] s = [(s, 1)] := by simp [bumpCount]
    rw [hb, bump_foldl_replicate s m 1]
    have h1 : 1 + m = m + 1 := by omega
    rw [h1]

/-- An input with a single distinct symbol yields a one-entry frequency
table. -/
theorem mft_replicate_length {n : Nat} (hn : 1 ≤ n) (s : Str) :
    (make_frequency_tuples (List.replicate n s)).length = 1 := by
  rw [mft_length, counts_replicate hn s]
  rfl

/-! ### Concrete inputs for the claims -/

/-- The 8-bit binary string of a byte value, for concrete inputs. -/
def byteOf (n : Nat) : Str := natToBin 8 n

/-- The payload of a successful `Except`, `[]` on error. -/
def exVal (x : Except PyErr Str) : Str :=
  match x with
  | .ok v => v
  | .error _ => []

/-- A six-byte input over the three distinct byte values 0, 1 and 2. -/
def blc3 : List Str := [byteOf 0, byteOf 0, byteOf 1, byteOf 1, byteOf 2, byteOf 1]

/-- A stream whose header declares one symbol with an 8-bit codeword while
only 3 bits remain after the length byte: pad byte 0, count byte 0 (one
symbol), symbol byte 65, length byte 8, then the 3 bits `111`. -/
def c8input : Str := byteOf 0 ++ byteOf 0 ++ byteOf 65 ++ byteOf 8 ++ ['1', '1', '1']

/-- A two-symbol code table for exercising the header codec. -/
def tbl6 : Dict := [(byteOf 0, ['0']), (byteOf 1, ['1'])]

/-! ### The claims -/

/-- Claim C1 (corrected): the round-trip `Decode (Encode S) = S` holds for
every byte sequence with at least two distinct byte values, but not
unrestrictedly: on the empty, single-byte and all-identical-bytes inputs the
spec explicitly includes, `Encode` raises `IndexError` (see the
counterexample). -/
theorem c1_roundtrip_two_distinct {bl : List Str}
    (hbytes : ∀ s ∈ bl, isByte s = true)
    (hlen2 : 2 ≤ (make_frequency_tuples bl).length) :
    ∃ e, Encode bl = .ok e ∧ Decode e = .ok bl.flatten :=
  roundtrip hbytes hlen2

/-- Claim C1, witness: the round-trip at the two-byte input `[0x00, 0x01]`. -/
theorem c1_roundtrip_two_distinct_witness :
    ∃ e, Encode [byteOf 0, byteOf 1] = .ok e ∧
      Decode e = .ok ([byteOf 0, byteOf 1] : List Str).flatten :=
  c1_roundtrip_two_distinct (by decide) (by decide)

/-- Claim C1, counterexample to the unrestricted round-trip: on the
single-byte input `[0x41]` the merge loop leaves one frequency entry and
`codes[freqs[1][1]]` raises `IndexError`, so `Decode (Encode S)` cannot
return `S`. -/
theorem c1_single_byte_encode_fails :
    Encode [byteOf 65] = .error .indexError := by decide

/-- Claim C2 (code bug): on 1000 repetitions of byte `0x41` the frequency
table has exactly one entry, the merge loop never runs, and the indexing
`codes[freqs[1][1]]` raises `IndexError`: `Encode` fails instead of building
the 1-entry table with codeword "0" that the spec promises. -/
theorem c2_single_symbol_encode_fails :
    Encode (List.replicate 1000 (byteOf 65)) = .error .indexError :=
  Encode_err_of_short (by
    rw [mft_replicate_length (show 1 ≤ 1000 by omega) (byteOf 65)])

/-- Claim C3 (code bug): `Decode` raises no error on an unmatched trailing
buffer.  Encoding the six-byte input `blc3` yields an 80-bit stream; keeping
only its first 72 bits (the final byte truncated) leaves a stream that
`Decode` accepts, returning the empty string instead of raising an
`UnmatchedTrailingBits` or `MalformedHeader` error — silent wrong data. -/
theorem c3_truncated_stream_silently_accepted :
    Encode blc3 = .ok (exVal (Encode blc3)) ∧
    (exVal (Encode blc3)).length = 80 ∧
    Decode ((exVal (Encode blc3)).take 72) = .ok [] ∧
    blc3.flatten ≠ [] := by decide

/-- Claim C4 (code bug): the empty input is neither explicitly rejected nor
special-cased: `make_frequency_tuples [] = []`, the merge loop leaves an
empty list, and `codes[freqs[0][1]]` raises an incidental `IndexError` from
list indexing — there is no dedicated empty-input error path. -/
theorem c4_empty_input_incidental_error :
    Encode ([] : List Str) = .error .indexError ∧
    make_frequency_tuples ([] : List Str) = [] := by decide

/-- Claim C5: on any input with at least two distinct byte values the built
table is prefix-free (for distinct keys neither codeword is a prefix of the
other), every input symbol has exactly one codeword, every codeword is a
nonempty pure bit string (all placeholder substitutions resolved), and no
synthetic placeholder key remains (every key is a byte). -/
theorem c5_table_prefix_free {bl : List Str}
    (hbytes : ∀ s ∈ bl, isByte s = true)
    (hlen2 : 2 ≤ (make_frequency_tuples bl).length) :
    ∃ T, create_encoder_dictionary (make_frequency_tuples bl) = .ok T ∧
      (∀ k1 k2 c1 c2, k1 ≠ k2 → dfind T k1 = some c1 → dfind T k2 = some c2 →
        ¬ (c1 <+: c2)) ∧
      (∀ s ∈ bl, ∃ c, dfind T s = some c ∧ isBits c = true ∧ c ≠ []) ∧
      (∀ k ∈ keys T, isByte k = true) := by
  obtain ⟨T, hT, hspec⟩ := create_encoder_spec hbytes hlen2
  refine ⟨T, hT, hspec.pfree, ?_, hspec.keysBytes⟩
  intro s hs
  have hk : s ∈ keys T := (hspec.domain s (hbytes s hs)).2 (mft_syms_mem.2 hs)
  obtain ⟨c, hc⟩ := dfind_isSome_iff.2 hk
  obtain ⟨hb, hne, _⟩ := hspec.vals s c hc
  exact ⟨c, hc, hb, hne⟩

/-- Claim C5, witness: the table built for the input `[0x02, 0x03]`. -/
theorem c5_table_prefix_free_witness :
    ∃ T, create_encoder_dictionary
        (make_frequency_tuples [byteOf 2, byteOf 3]) = .ok T ∧
      (∀ k1 k2 c1 c2, k1 ≠ k2 → dfind T k1 = some c1 → dfind T k2 = some c2 →
        ¬ (c1 <+: c2)) ∧
      (∀ s ∈ ([byteOf 2, byteOf 3] : List Str),
        ∃ c, dfind T s = some c ∧ isBits c = true ∧ c ≠ []) ∧
      (∀ k ∈ keys T, isByte k = true) :=
  c5_table_prefix_free (by decide) (by decide)

/-- Claim C6: for a valid code table (8-bit keys, codeword lengths 1-255,
pairwise distinct codewords, 1-256 entries), parsing the serialized header
after one padding byte reads back the symbol count, rebuilds exactly the
swapped (codeword to symbol) map, and consumes exactly the header bits,
leaving the rest of the stream; the rebuilt map inverts the table. -/
theorem c6_header_inverse {T : Dict} {bs pad rest : Str}
    (hkeys8 : ∀ p ∈ T, p.1.length = 8)
    (hvals : ∀ p ∈ T, 1 ≤ p.2.length ∧ p.2.length ≤ 255)
    (hvnd : (T.map Prod.snd).Nodup)
    (h1 : 1 ≤ T.length) (h2 : T.length ≤ 256) (hpad : pad.length = 8) :
    ∃ hdr, make_header bs T = .ok hdr ∧
      binUint (((pad ++ hdr ++ rest).drop 8).take 8) = .ok (T.length - 1) ∧
      parseHeaderLoop T.length [] ((pad ++ hdr ++ rest).drop 16) =
        .ok (T.map (fun p => (p.2, p.1)), rest) ∧
      (∀ s c, (s, c) ∈ T → dfind (T.map (fun p => (p.2, p.1))) c = some s) := by
  have hhdr := @make_header_ok T bs h1 h2 (fun p hp => (hvals p hp).2)
  refine ⟨_, hhdr, ?_, ?_, fun s c hm => dfind_swap hvnd hm⟩
  · have hasc : pad ++ (natToBin 8 (T.length - 1) ++ headerEntries T) ++ rest
        = pad ++ (natToBin 8 (T.length - 1) ++ (headerEntries T ++ rest)) := by
      simp [List.append_assoc]
    rw [hasc, List.drop_left' hpad, List.take_left' (natToBin_length 8 (T.length - 1)),
      binUint_natToBin (by omega) (by omega)]
  · have hasc : pad ++ (natToBin 8 (T.length - 1) ++ headerEntries T) ++ rest
        = pad ++ (natToBin 8 (T.length - 1) ++ (headerEntries T ++ rest)) := by
      simp [List.append_assoc]
    have hdrop : (pad ++ (natToBin 8 (T.length - 1) ++ (headerEntries T ++ rest))).drop 16
        = headerEntries T ++ rest := by
      rw [show (16 : Nat) = 8 + 8 from rfl, ← List.drop_drop, List.drop_left' hpad]
      exact List.drop_left' (natToBin_length 8 (T.length - 1))
    rw [hasc, hdrop, parseHeaderLoop_ok hkeys8 hvals hvnd [] rest (by simp [keys])]
    simp

/-- Claim C6, witness: the two-entry table `tbl6`, pad byte 3, and two
trailing payload bits. -/
theorem c6_header_inverse_witness :
    ∃ hdr, make_header [] tbl6 = .ok hdr ∧
      binUint (((byteOf 3 ++ hdr ++ ['1', '0']).drop 8).take 8) =
        .ok (tbl6.length - 1) ∧
      parseHeaderLoop tbl6.length [] ((byteOf 3 ++ hdr ++ ['1', '0']).drop 16) =
        .ok (tbl6.map (fun p => (p.2, p.1)), ['1', '0']) ∧
      (∀ s c, (s, c) ∈ tbl6 → dfind (tbl6.map (fun p => (p.2, p.1))) c = some s) :=
  c6_header_inverse (by decide) (by decide) (by decide) (by decide) (by decide)
    (by decide)

/-- Claim C7: whenever `Encode` succeeds, its output is the pad byte, the
body (header plus payload), then `pad` zero bits, where
`pad = 8 - body.length % 8` lies in `[1, 8]` (at least one padding bit even
when already aligned), and the total bit length is a multiple of 8. -/
theorem c7_padding_and_alignment {bl : List Str} {e : Str}
    (h : Encode bl = .ok e) :
    ∃ body npad, npad = 8 - body.length % 8 ∧ 1 ≤ npad ∧ npad ≤ 8 ∧
      e = natToBin 8 npad ++ body ++ List.replicate npad '0' ∧
      e.length % 8 = 0 :=
  Encode_shape h

/-- Claim C7, witness: the encoding of `[0x04, 0x05]`. -/
theorem c7_padding_and_alignment_witness :
    ∃ body npad, npad = 8 - body.length % 8 ∧ 1 ≤ npad ∧ npad ≤ 8 ∧
      exVal (Encode [byteOf 4, byteOf 5]) =
        natToBin 8 npad ++ body ++ List.replicate npad '0' ∧
      (exVal (Encode [byteOf 4, byteOf 5])).length % 8 = 0 :=
  @c7_padding_and_alignment [byteOf 4, byteOf 5]
    (exVal (Encode [byteOf 4, byteOf 5])) (by decide)

/-- Claim C8 (code bug): a header that declares an 8-bit codeword with only
3 bits remaining is not rejected: the slice `bin_to_decompress[16:16+n_bits]`
silently yields the short remainder, the decode map receives a truncated
codeword, and `Decode` returns an empty result instead of raising a
`MalformedHeader` error. -/
theorem c8_overlong_declared_codeword_accepted :
    Decode c8input = .ok [] := by decide

/-- Claim C9: on any input with at least two distinct byte values (hence at
most 256, as symbols are bytes) every codeword of the built table has length
between 1 and 255, so `make_header` writes every length as an 8-bit unsigned
integer without overflow and never takes its error branch. -/
theorem c9_codeword_length_fits_byte {bl : List Str}
    (hbytes : ∀ s ∈ bl, isByte s = true)
    (hlen2 : 2 ≤ (make_frequency_tuples bl).length) :
    ∃ T, create_encoder_dictionary (make_frequency_tuples bl) = .ok T ∧
      (∀ p ∈ T, 1 ≤ p.2.length ∧ p.2.length ≤ 255) ∧
      (∀ bs, ∃ hdr, make_header bs T = .ok hdr) := by
  obtain ⟨T, hT, hspec⟩ := create_encoder_spec hbytes hlen2
  have hsymsb : ∀ s ∈ (make_frequency_tuples bl).map Prod.snd, isByte s = true :=
    fun s hs => hbytes s (mft_syms_mem.1 hs)
  have hTlen : T.length = (make_frequency_tuples bl).length := by
    have := tablespec_length hspec hsymsb (mft_syms_nodup bl)
    simpa using this
  have hm256 : (make_frequency_tuples bl).length ≤ 256 := by
    have := bytes_nodup_le hsymsb (mft_syms_nodup bl)
    simpa using this
  have hvals : ∀ p ∈ T, 1 ≤ p.2.length ∧ p.2.length ≤ 255 := by
    intro p hp
    have hf : dfind T p.1 = some p.2 := dfind_of_mem_nodup hspec.keysNodup hp
    obtain ⟨_, hne, hle⟩ := hspec.vals p.1 p.2 hf
    have hone : 1 ≤ p.2.length := by
      cases hq : p.2 with
      | nil => exact absurd hq hne
      | cons a b => simp
    exact ⟨hone, by omega⟩
  refine ⟨T, hT, hvals, ?_⟩
  intro bs
  exact ⟨_, make_header_ok (by omega) (by omega) (fun p hp => (hvals p hp).2)⟩

/-- Claim C9, witness: the table built for the input `[0x06, 0x07]`. -/
theorem c9_codeword_length_fits_byte_witness :
    ∃ T, create_encoder_dictionary
        (make_frequency_tuples [byteOf 6, byteOf 7]) = .ok T ∧
      (∀ p ∈ T, 1 ≤ p.2.length ∧ p.2.length ≤ 255) ∧
      (∀ bs, ∃ hdr, make_header bs T = .ok hdr) :=
  c9_codeword_length_fits_byte (by decide) (by decide)

/-- Claim C10: the result of `Encode` is independent of the instance state:
`EncodeSt` only writes the five instance attributes and never reads them, so
two runs from any two states return the same encoded string, equal to the
pure `Encode` of the input; `Decode` is a static method taking no state at
all, so its determinism is by construction. -/
theorem c10_state_independence (st st' : HuffmanState) (bl : List Str) :
    (EncodeSt st bl).map Prod.fst = (EncodeSt st' bl).map Prod.fst ∧
    (EncodeSt st bl).map Prod.fst = Encode bl :=
  ⟨rfl, rfl⟩

end Huffman
